import Mathlib

/-!
# Verification of the HTLCProductsSim repository against its specification

Shallow embedding of the core of `HTLCProductsSim` (a simulator for
hash-oracle-based financial products) in Lean 4, together with theorems that
settle the claims of the specification.

Modelling conventions:
* Python floats are embedded as exact rationals (`ℚ`); all the algorithms in
  the repository are pure arithmetic over numbers, and the specification is
  about exact value conservation, counts and orderings.
* Byte strings (`bytes`) are embedded as `List ℕ` with values understood to
  be bytes; the injectable hash primitive (`hash_function`) becomes an
  explicit function parameter `List ℕ → List ℕ`, exactly as the repository
  allows an arbitrary hash object to be injected.
* Python exceptions become `Except String` results; a Python method that can
  return `None` becomes an `Option`.
* Mutation of `Account` objects referenced from tranches becomes explicit
  state passing on the list of accounts of the owning `Contract`
  (tranches refer to accounts by their index in `Contract.accounts`, which is
  exactly how `Contract.addTranche` wires them up).
-/

namespace HTLCSim

/-! ## Bytes, hex and UTF-8 helpers

`bytes.hex()` of Python produces two lowercase hexadecimal digits per byte;
`str.encode('utf-8')` produces the UTF-8 byte encoding. -/

def hexDigits : List Char :=
  "0123456789abcdef".data

/-- Two lowercase hex digits for one byte (Python `bytes.hex()`, per byte). -/
def byteHex (b : ℕ) : List Char :=
  [hexDigits.getD (b / 16 % 16) '0', hexDigits.getD (b % 16) '0']

/-- Lowercase hex string of a byte blob (Python `bytes.hex()`). -/
def bytesHex (bs : List ℕ) : String :=
  String.mk (bs.flatMap byteHex)

/-- UTF-8 encoding of one character (code point → bytes). -/
def charUtf8 (c : Char) : List ℕ :=
  let n := c.toNat
  if n < 128 then [n]
  else if n < 2048 then [192 + n / 64, 128 + n % 64]
  else if n < 65536 then [224 + n / 4096, 128 + n / 64 % 64, 128 + n % 64]
  else [240 + n / 262144, 128 + n / 4096 % 64, 128 + n / 64 % 64, 128 + n % 64]

/-- UTF-8 encoding of a string (Python `s.encode('utf-8')`). -/
def strUtf8 (s : String) : List ℕ :=
  s.data.flatMap charUtf8

theorem byteHex_length (b : ℕ) : (byteHex b).length = 2 := rfl

theorem bytesHex_length (bs : List ℕ) : (bytesHex bs).length = 2 * bs.length := by
  show (bs.flatMap byteHex).length = 2 * bs.length
  induction bs with
  | nil => rfl
  | cons b bs ih =>
      rw [List.flatMap_cons, List.length_append, ih, byteHex_length, List.length_cons]
      omega

/-! ## `HTLCProductsSim.py`: the settlement engine

Classes `Pair`, `Price`, `AssetBag`, `Account`, `OracleHash`, `HashTranche`
and `Contract`. Symbol validation (`assertSymbolValid`) only restricts which
strings may appear as currency symbols and is orthogonal to every claim, so
symbols are embedded as plain strings. -/

/-- `class Pair`: a currency pair, e.g. `"USD:BTS"`. -/
structure Pair where
  base : String
  quote : String
deriving DecidableEq, Repr

/-- `Pair.swap`. -/
def Pair.swap (p : Pair) : Pair := ⟨p.quote, p.base⟩

/-- `Pair.compat`: equal, or equal after swapping base and quote. -/
def Pair.compat (p other : Pair) : Bool :=
  (p.base == other.base && p.quote == other.quote) ||
  (p.base == other.quote && p.quote == other.base)

/-- `Pair.same`: equal with the same orientation. -/
def Pair.same (p other : Pair) : Bool :=
  p.base == other.base && p.quote == other.quote

/-- `class Price`: a rate plus a currency pair. -/
structure Price where
  price : ℚ
  pair : Pair
deriving DecidableEq, Repr

/-- `Price.flip`: reciprocal rate with the swapped pair. -/
def Price.flip (p : Price) : Price := ⟨1 / p.price, p.pair.swap⟩

/-- `Price.__mul__` / `__rmul__`: multiplication by a scalar. -/
def Price.scale (k : ℚ) (p : Price) : Price := ⟨k * p.price, p.pair⟩

/-- `Price.__gt__`: raises `ValueError("Incompatible prices")` unless the two
pairs are `same` (identical orientation), otherwise compares the rates. -/
def Price.gtE (p other : Price) : Except String Bool :=
  if p.pair.same other.pair then .ok (decide (other.price < p.price))
  else .error "Incompatible prices"

/-- `Price.__lt__`: `other > self`. -/
def Price.ltE (p other : Price) : Except String Bool :=
  Price.gtE other p

/-- `Price.__ge__`: `not other > self`. -/
def Price.geE (p other : Price) : Except String Bool :=
  (Price.gtE other p).map (fun b => !b)

/-- `Price.__le__`: `not self > other`. -/
def Price.leE (p other : Price) : Except String Bool :=
  (Price.gtE p other).map (fun b => !b)

/-- `class AssetBag`: a numeric amount plus an asset symbol. -/
structure AssetBag where
  amount : ℚ
  symbol : String
deriving DecidableEq, Repr

/-- `Account.receive`: the first bag with a compatible (same-symbol) asset
absorbs the received amount; otherwise a clone of the received bag is
appended. An account is its list of bags. -/
def receiveBags : List AssetBag → AssetBag → List AssetBag
  | [], r => [r]
  | b :: bs, r =>
      if b.symbol = r.symbol then ⟨b.amount + r.amount, b.symbol⟩ :: bs
      else b :: receiveBags bs r

/-- `class OracleHash`: a threshold price with `strict` and `exceeds` flags. -/
structure OracleHash where
  threshprice : Price
  strict : Bool
  exceeds : Bool
deriving DecidableEq, Repr

/-- `OracleHash.GT`. -/
def OracleHash.GT (p : Price) : OracleHash := ⟨p, true, true⟩

/-- `OracleHash.GE`. -/
def OracleHash.GE (p : Price) : OracleHash := ⟨p, false, true⟩

/-- `OracleHash.LT`. -/
def OracleHash.LT (p : Price) : OracleHash := ⟨p, true, false⟩

/-- `OracleHash.LE`. -/
def OracleHash.LE (p : Price) : OracleHash := ⟨p, false, false⟩

/-- `OracleHash.isRevealed`: tolerate a compatible-but-inverted observed
price by flipping it, then apply the configured comparison (which itself
raises on pairs that are still incompatible). -/
def OracleHash.isRevealed (oh : OracleHash) (obsprice : Price) : Except String Bool :=
  let obs := if !(obsprice.pair.same oh.threshprice.pair) then obsprice.flip else obsprice
  if oh.exceeds then
    if oh.strict then Price.gtE obs oh.threshprice else Price.geE obs oh.threshprice
  else
    if oh.strict then Price.ltE obs oh.threshprice else Price.leE obs oh.threshprice

/-- `OracleHash.priceCompatible`. -/
def OracleHash.priceCompatible (oh : OracleHash) (price : Price) : Bool :=
  price.pair.compat oh.threshprice.pair

/-- `class HashTranche`: an oracle hash, an asset, and the indices (into the
owning contract's account list) of the timeout and hash destination
accounts — `Contract.addTranche` wires tranches to accounts by index. -/
structure HashTranche where
  ohash : OracleHash
  asset : AssetBag
  tidx : ℕ
  hidx : ℕ
deriving DecidableEq, Repr

/-- First price of the list compatible with a tranche's oracle
(the selection loop of `HashTranche.disburse`). -/
def findCompatiblePrice (oh : OracleHash) : List Price → Option Price
  | [] => none
  | p :: ps => if oh.priceCompatible p then some p else findCompatiblePrice oh ps

/-- Deliver a bag into account `i` of the account list. -/
def accountsReceive (accs : List (List AssetBag)) (i : ℕ) (b : AssetBag) :
    List (List AssetBag) :=
  accs.set i (receiveBags (accs.getD i []) b)

/-- `HashTranche.disburse`: find the first compatible price in `knownprices`
(raising `ValueError` if none), then deliver the tranche's asset to the hash
account if the oracle is revealed, to the timeout account otherwise. -/
def disburse (tr : HashTranche) (knownprices : List Price)
    (accs : List (List AssetBag)) : Except String (List (List AssetBag)) :=
  match findCompatiblePrice tr.ohash knownprices with
  | none => .error "No compatible price in knownprices"
  | some p => do
      let b ← tr.ohash.isRevealed p
      .ok (if b then accountsReceive accs tr.hidx tr.asset
           else accountsReceive accs tr.tidx tr.asset)

/-- `Contract.conclude`: disburse every tranche in list order against the
same price snapshot. -/
def conclude (tranches : List HashTranche) (finalprices : List Price)
    (accs : List (List AssetBag)) : Except String (List (List AssetBag)) :=
  match tranches with
  | [] => .ok accs
  | t :: ts => do
      let accs' ← disburse t finalprices accs
      conclude ts finalprices accs'

/-! Totals per symbol, used to state the conservation invariant. -/

/-- Total amount of one symbol held in a bag list. -/
def bagsTotal (sym : String) (bags : List AssetBag) : ℚ :=
  (bags.map (fun b => if b.symbol = sym then b.amount else 0)).sum

/-- Total amount of one symbol held across all accounts. -/
def accountsTotal (sym : String) (accs : List (List AssetBag)) : ℚ :=
  (accs.map (bagsTotal sym)).sum

/-- Total amount of one symbol across the assets of all tranches. -/
def tranchesTotal (sym : String) (trs : List HashTranche) : ℚ :=
  (trs.map (fun t => if t.asset.symbol = sym then t.asset.amount else 0)).sum

/-! ## `BoundedStableCoin.py`: geometric tranche partitioning

`math.sqrt` is an external real-valued primitive; the construction is
embedded parametrically in a square-root function `sq : ℚ → ℚ` (only the
positions of the midpoints depend on it, never the counts or the amounts). -/

/-- The repeated-multiplication loops of `_GetGeometricSeries`:
`mulChain r x k = [r*x, r*(r*x), …]` (`k` successive multiplications). -/
def mulChain (r : ℚ) (x : ℚ) : ℕ → List ℚ
  | 0 => []
  | k + 1 => (r * x) :: mulChain r (r * x) k

/-- `_GetGeometricSeries(stepFrac, n_above, n_below)`: start from `[1]`,
extend downward `n_below` times by the inverse ratio, reverse, then extend
upward `n_above` times by the ratio. -/
def GetGeometricSeries (stepFrac : ℚ) (n_above n_below : ℕ) : List ℚ :=
  let invFrac := 1 / stepFrac
  let rr := (1 :: mulChain invFrac 1 n_below).reverse
  rr ++ mulChain stepFrac (rr.getLastD 1) n_above

/-- `_GetGeometricMidpoints`: `sqrt(a*b)` over consecutive pairs. -/
def GetGeometricMidpoints (sq : ℚ → ℚ) (somelist : List ℚ) : List ℚ :=
  (somelist.zip somelist.tail).map (fun ab => sq (ab.1 * ab.2))

/-- The pie-slice loop of `BoundedStableCoin.__init__`: each step peels
`remainder * cutFrac` off the remainder; returns the slices and the final
remainder. -/
def carve (cutFrac : ℚ) : ℚ → ℕ → List ℚ × ℚ
  | rem, 0 => ([], rem)
  | rem, k + 1 =>
      let s := rem * cutFrac
      let sr := carve cutFrac (rem - s) k
      (s :: sr.1, sr.2)

/-- `BoundedStableCoin.__init__`: the contract's tranche list. Two accounts
are created (index 0 = stable product, timeout destination; index 1 =
variable product, hash destination); one `GE` tranche per switch price plus
the final never-revealed `LT 0` tranche holding the leftover remainder.
Returns `none` when the principal's symbol does not match the base of the
price (the constructor's `ValueError`). -/
def bscTrancheList (sq : ℚ → ℚ) (principle : AssetBag) (growthtolerance : ℚ)
    (todayprice : Price) (n_above n_below : ℕ) : List HashTranche :=
  let cutFrac := 1 - 1 / growthtolerance
  let switchprices :=
    GetGeometricMidpoints sq (GetGeometricSeries growthtolerance n_above n_below)
  let sl := carve cutFrac principle.amount switchprices.length
  (switchprices.zip sl.1).map
      (fun pb => ⟨OracleHash.GE (Price.scale pb.1 todayprice),
                  ⟨pb.2, principle.symbol⟩, 0, 1⟩)
    ++ [⟨OracleHash.LT (Price.scale 0 todayprice), ⟨sl.2, principle.symbol⟩, 0, 1⟩]

def bscTranches (sq : ℚ → ℚ) (principle : AssetBag) (growthtolerance : ℚ)
    (todayprice : Price) (n_above n_below : ℕ) : Option (List HashTranche) :=
  if principle.symbol = todayprice.pair.base then
    some (bscTrancheList sq principle growthtolerance todayprice n_above n_below)
  else none

/-- The step-count search of `BoundedStableCoin.Face`: starting from `n = 1`
and counting upward, stop at the first `n` with `upside^(1/n) ≤ tolerance`.
Over exact arithmetic `upside^(1/n) ≤ tolerance` holds iff
`upside ≤ tolerance^n` (both sides positive), which is the form used here;
the termination of the `while` loop is the hypothesis `h`. -/
def faceSteps (upside tolerance : ℚ) (h : ∃ n : ℕ, upside ≤ tolerance ^ (n + 1)) : ℕ :=
  Nat.find h + 1

/-! ### Basic lemmas about the settlement engine -/

theorem bagsTotal_nil (sym : String) : bagsTotal sym [] = 0 := rfl

theorem bagsTotal_cons (sym : String) (b : AssetBag) (bs : List AssetBag) :
    bagsTotal sym (b :: bs) =
      (if b.symbol = sym then b.amount else 0) + bagsTotal sym bs := by
  simp [bagsTotal]

theorem accountsTotal_nil (sym : String) : accountsTotal sym [] = 0 := rfl

theorem accountsTotal_cons (sym : String) (a : List AssetBag) (accs : List (List AssetBag)) :
    accountsTotal sym (a :: accs) = bagsTotal sym a + accountsTotal sym accs := by
  simp [accountsTotal]

/-- Receiving a bag adds its amount to the per-symbol total of the account
(whether it is absorbed by an existing bag or appended as a new one). -/
theorem bagsTotal_receive (sym : String) (bags : List AssetBag) (r : AssetBag) :
    bagsTotal sym (receiveBags bags r) =
      bagsTotal sym bags + (if r.symbol = sym then r.amount else 0) := by
  induction bags with
  | nil => simp [receiveBags, bagsTotal_cons, bagsTotal_nil]
  | cons b bs ih =>
      by_cases hb : b.symbol = r.symbol
      · have hrw : receiveBags (b :: bs) r = ⟨b.amount + r.amount, b.symbol⟩ :: bs := by
          simp [receiveBags, hb]
        rw [hrw, bagsTotal_cons, bagsTotal_cons, hb]
        by_cases hs : r.symbol = sym
        · simp only [hs, if_pos rfl, ite_true]
          ring
        · simp only [hs, if_neg hs, ite_false]
          ring
      · have hrw : receiveBags (b :: bs) r = b :: receiveBags bs r := by
          simp [receiveBags, hb]
        rw [hrw, bagsTotal_cons, bagsTotal_cons, ih]
        ring

theorem accountsReceive_length (accs : List (List AssetBag)) (i : ℕ) (r : AssetBag) :
    (accountsReceive accs i r).length = accs.length := by
  simp [accountsReceive]

/-- Delivering a bag to a valid account index adds its amount to the
per-symbol grand total. -/
theorem accountsTotal_receive (sym : String) (accs : List (List AssetBag)) (i : ℕ)
    (r : AssetBag) (hi : i < accs.length) :
    accountsTotal sym (accountsReceive accs i r) =
      accountsTotal sym accs + (if r.symbol = sym then r.amount else 0) := by
  induction accs generalizing i with
  | nil => simp at hi
  | cons a accs ih =>
      cases i with
      | zero =>
          simp only [accountsReceive, List.set_cons_zero, List.getD_cons_zero,
            accountsTotal_cons, bagsTotal_receive]
          ring
      | succ i =>
          have hi' : i < accs.length := by simpa using hi
          have := ih i hi'
          simp only [accountsReceive, List.set_cons_succ, List.getD_cons_succ,
            accountsTotal_cons] at *
          rw [this]
          ring

theorem findCompatiblePrice_some (oh : OracleHash) (prices : List Price)
    (h : ∃ p ∈ prices, oh.priceCompatible p = true) :
    ∃ p, findCompatiblePrice oh prices = some p := by
  induction prices with
  | nil => simp at h
  | cons q qs ih =>
      by_cases hq : oh.priceCompatible q = true
      · exact ⟨q, by simp [findCompatiblePrice, hq]⟩
      · obtain ⟨p, hmem, hpc⟩ := h
        rcases List.mem_cons.mp hmem with heq | hmem'
        · exact absurd (heq ▸ hpc) hq
        · obtain ⟨p', hp'⟩ := ih ⟨p, hmem', hpc⟩
          exact ⟨p', by simp [findCompatiblePrice, hq, hp']⟩

theorem pair_same_comm' (p q : Pair) : p.same q = q.same p := by
  simp only [Pair.same]
  rw [Bool.eq_iff_iff]
  simp only [Bool.and_eq_true, beq_iff_eq]
  constructor <;> rintro ⟨h1, h2⟩ <;> exact ⟨h1.symm, h2.symm⟩

/-- Compatible but not identically oriented pairs become identically
oriented after a swap. -/
theorem swap_same_of_compat (p q : Pair) (hc : p.compat q = true) (hs : p.same q = false) :
    p.swap.same q = true := by
  simp only [Pair.compat, Bool.or_eq_true, Bool.and_eq_true, beq_iff_eq] at hc
  have hs' : ¬(p.base = q.base ∧ p.quote = q.quote) := by
    intro h
    have ht : p.same q = true := by simp [Pair.same, h.1, h.2]
    rw [ht] at hs
    cases hs
  simp only [Pair.same, Pair.swap, Bool.and_eq_true, beq_iff_eq]
  rcases hc with h | h
  · exact absurd h hs'
  · exact ⟨h.2, h.1⟩

theorem gtE_ok_of_same (p q : Price) (h : p.pair.same q.pair = true) :
    Price.gtE p q = .ok (decide (q.price < p.price)) := by
  simp [Price.gtE, h]

theorem ltE_ok_of_same (p q : Price) (h : p.pair.same q.pair = true) :
    Price.ltE p q = .ok (decide (p.price < q.price)) := by
  have h' : q.pair.same p.pair = true := by rw [pair_same_comm']; exact h
  simp [Price.ltE, Price.gtE, h']

theorem geE_ok_of_same (p q : Price) (h : p.pair.same q.pair = true) :
    Price.geE p q = .ok (!decide (p.price < q.price)) := by
  have h' : q.pair.same p.pair = true := by rw [pair_same_comm']; exact h
  simp [Price.geE, Price.gtE, h', Except.map]

theorem leE_ok_of_same (p q : Price) (h : p.pair.same q.pair = true) :
    Price.leE p q = .ok (!decide (q.price < p.price)) := by
  simp [Price.leE, Price.gtE, h, Except.map]

/-- With a compatible observed price, `isRevealed` never raises: a possibly
flipped observation is always compared against a same-oriented pair. -/
theorem isRevealed_ok (oh : OracleHash) (p : Price)
    (hc : oh.priceCompatible p = true) : ∃ b, oh.isRevealed p = .ok b := by
  have hobs : ∃ obs : Price,
      (if !(p.pair.same oh.threshprice.pair) then p.flip else p) = obs ∧
      obs.pair.same oh.threshprice.pair = true := by
    by_cases hsame : p.pair.same oh.threshprice.pair = true
    · exact ⟨p, by simp [hsame], hsame⟩
    · have hs : p.pair.same oh.threshprice.pair = false := by
        simpa using hsame
      refine ⟨p.flip, by simp [hs], ?_⟩
      have : p.pair.swap.same oh.threshprice.pair = true :=
        swap_same_of_compat _ _ hc hs
      simpa [Price.flip]
  obtain ⟨obs, hobs_eq, hobs_same⟩ := hobs
  have hrw : oh.isRevealed p =
      (if oh.exceeds then
        if oh.strict then Price.gtE obs oh.threshprice else Price.geE obs oh.threshprice
      else
        if oh.strict then Price.ltE obs oh.threshprice else Price.leE obs oh.threshprice) := by
    unfold OracleHash.isRevealed
    rw [hobs_eq]
  rw [hrw]
  cases oh.exceeds <;> cases oh.strict <;> simp only [if_true, if_false, Bool.false_eq_true,
    Bool.true_eq_false, ite_true, ite_false]
  · exact ⟨_, leE_ok_of_same obs oh.threshprice hobs_same⟩
  · exact ⟨_, ltE_ok_of_same obs oh.threshprice hobs_same⟩
  · exact ⟨_, geE_ok_of_same obs oh.threshprice hobs_same⟩
  · exact ⟨_, gtE_ok_of_same obs oh.threshprice hobs_same⟩

/-- `disburse` at a valid tranche with a compatible price available:
succeeds, preserves the account count, and adds the tranche's amount to the
per-symbol grand total. -/
theorem disburse_spec (tr : HashTranche) (prices : List Price)
    (accs : List (List AssetBag))
    (ht : tr.tidx < accs.length) (hh : tr.hidx < accs.length)
    (hcp : ∃ p ∈ prices, tr.ohash.priceCompatible p = true) :
    ∃ accs', disburse tr prices accs = .ok accs' ∧
      accs'.length = accs.length ∧
      ∀ sym, accountsTotal sym accs' =
        accountsTotal sym accs + (if tr.asset.symbol = sym then tr.asset.amount else 0) := by
  obtain ⟨p, hp⟩ := findCompatiblePrice_some tr.ohash prices hcp
  have hpc : tr.ohash.priceCompatible p = true := by
    clear hcp
    induction prices with
    | nil => simp [findCompatiblePrice] at hp
    | cons q qs ih =>
        by_cases hq : tr.ohash.priceCompatible q = true
        · simp [findCompatiblePrice, hq] at hp; exact hp ▸ hq
        · simp [findCompatiblePrice, hq] at hp; exact ih hp
  obtain ⟨b, hb⟩ := isRevealed_ok tr.ohash p hpc
  have hd : disburse tr prices accs = (tr.ohash.isRevealed p).bind
      (fun b => .ok (if b then accountsReceive accs tr.hidx tr.asset
                     else accountsReceive accs tr.tidx tr.asset)) := by
    unfold disburse
    rw [hp]
    rfl
  cases b
  · refine ⟨accountsReceive accs tr.tidx tr.asset, ?_, ?_, ?_⟩
    · rw [hd, hb]; rfl
    · exact accountsReceive_length _ _ _
    · intro sym; exact accountsTotal_receive sym accs tr.tidx tr.asset ht
  · refine ⟨accountsReceive accs tr.hidx tr.asset, ?_, ?_, ?_⟩
    · rw [hd, hb]; rfl
    · exact accountsReceive_length _ _ _
    · intro sym; exact accountsTotal_receive sym accs tr.hidx tr.asset hh

theorem tranchesTotal_nil (sym : String) : tranchesTotal sym [] = 0 := rfl

theorem tranchesTotal_cons (sym : String) (t : HashTranche) (ts : List HashTranche) :
    tranchesTotal sym (t :: ts) =
      (if t.asset.symbol = sym then t.asset.amount else 0) + tranchesTotal sym ts := by
  simp [tranchesTotal]

/-- `conclude` from any starting state: succeeds and adds the tranche totals
to the account totals, per symbol. -/
theorem conclude_spec (tranches : List HashTranche) (prices : List Price)
    (accs : List (List AssetBag))
    (hvalid : ∀ t ∈ tranches, t.tidx < accs.length ∧ t.hidx < accs.length)
    (hcp : ∀ t ∈ tranches, ∃ p ∈ prices, t.ohash.priceCompatible p = true) :
    ∃ accs', conclude tranches prices accs = .ok accs' ∧
      accs'.length = accs.length ∧
      ∀ sym, accountsTotal sym accs' = accountsTotal sym accs + tranchesTotal sym tranches := by
  induction tranches generalizing accs with
  | nil =>
      exact ⟨accs, rfl, rfl, by simp [tranchesTotal_nil]⟩
  | cons t ts ih =>
      obtain ⟨ht, hh⟩ := hvalid t (by simp)
      obtain ⟨accs1, h1, hlen1, htot1⟩ :=
        disburse_spec t prices accs ht hh (hcp t (by simp))
      obtain ⟨accs2, h2, hlen2, htot2⟩ := ih accs1
        (fun u hu => by rw [hlen1]; exact hvalid u (by simp [hu]))
        (fun u hu => hcp u (by simp [hu]))
      refine ⟨accs2, ?_, by rw [hlen2, hlen1], ?_⟩
      · have hc : conclude (t :: ts) prices accs =
            (disburse t prices accs).bind (fun a => conclude ts prices a) := rfl
        rw [hc, h1]
        exact h2
      · intro sym
        rw [htot2 sym, htot1 sym, tranchesTotal_cons]
        ring

theorem accountsTotal_empty (sym : String) (accs : List (List AssetBag))
    (h : ∀ a ∈ accs, a = ([] : List AssetBag)) : accountsTotal sym accs = 0 := by
  induction accs with
  | nil => rfl
  | cons a accs ih =>
      rw [accountsTotal_cons, h a (by simp), ih (fun b hb => h b (by simp [hb]))]
      simp [bagsTotal_nil]

theorem carve_length (c : ℚ) (rem : ℚ) (k : ℕ) : (carve c rem k).1.length = k := by
  induction k generalizing rem with
  | zero => rfl
  | succ k ih => simp [carve, ih]

/-- Telescoping: the carved slices and the final remainder sum back to the
starting amount, exactly. -/
theorem carve_sum (c : ℚ) (rem : ℚ) (k : ℕ) :
    (carve c rem k).1.sum + (carve c rem k).2 = rem := by
  induction k generalizing rem with
  | zero => simp [carve]
  | succ k ih =>
      simp only [carve, List.sum_cons]
      have := ih (rem - rem * c)
      linarith

/-- Per-symbol total of the tranche list built by `BoundedStableCoin`:
the slices plus the leftover, i.e. exactly the principal (for the
principal's own symbol). -/
theorem tranchesTotal_build (M sl : List ℚ) (rem : ℚ) (tp : Price) (sym : String)
    (h : sl.length = M.length) :
    tranchesTotal sym
      ((M.zip sl).map
        (fun pb => (⟨OracleHash.GE (Price.scale pb.1 tp), ⟨pb.2, sym⟩, 0, 1⟩ : HashTranche))
       ++ [⟨OracleHash.LT (Price.scale 0 tp), ⟨rem, sym⟩, 0, 1⟩]) = sl.sum + rem := by
  have hzip : ((M.zip sl).map
      (fun pb => (⟨OracleHash.GE (Price.scale pb.1 tp),
                   ⟨pb.2, sym⟩, 0, 1⟩ : HashTranche))).map
        (fun t => if t.asset.symbol = sym then t.asset.amount else 0)
      = (M.zip sl).map Prod.snd := by
    rw [List.map_map]
    exact List.map_congr_left (fun pb _ => by simp)
  have hsnd : (M.zip sl).map Prod.snd = sl := List.map_snd_zip M sl (le_of_eq h)
  unfold tranchesTotal
  rw [List.map_append, List.sum_append, hzip, hsnd]
  simp

theorem bscTrancheList_total (sq : ℚ → ℚ) (principle : AssetBag) (g : ℚ)
    (tp : Price) (na nb : ℕ) :
    tranchesTotal principle.symbol (bscTrancheList sq principle g tp na nb) =
      principle.amount := by
  show tranchesTotal principle.symbol
      ((((GetGeometricMidpoints sq (GetGeometricSeries g na nb)).zip
         (carve (1 - 1 / g) principle.amount
           (GetGeometricMidpoints sq (GetGeometricSeries g na nb)).length).1).map
        (fun pb => (⟨OracleHash.GE (Price.scale pb.1 tp),
                     ⟨pb.2, principle.symbol⟩, 0, 1⟩ : HashTranche)))
       ++ [⟨OracleHash.LT (Price.scale 0 tp),
            ⟨(carve (1 - 1 / g) principle.amount
               (GetGeometricMidpoints sq (GetGeometricSeries g na nb)).length).2,
             principle.symbol⟩, 0, 1⟩]) = principle.amount
  rw [tranchesTotal_build
    (GetGeometricMidpoints sq (GetGeometricSeries g na nb))
    (carve (1 - 1 / g) principle.amount
      (GetGeometricMidpoints sq (GetGeometricSeries g na nb)).length).1
    (carve (1 - 1 / g) principle.amount
      (GetGeometricMidpoints sq (GetGeometricSeries g na nb)).length).2
    tp principle.symbol
    (carve_length (1 - 1 / g) principle.amount
      (GetGeometricMidpoints sq (GetGeometricSeries g na nb)).length)]
  exact carve_sum (1 - 1 / g) principle.amount
    (GetGeometricMidpoints sq (GetGeometricSeries g na nb)).length

theorem bscTranches_total (sq : ℚ → ℚ) (principle : AssetBag) (g : ℚ)
    (tp : Price) (na nb : ℕ) (l : List HashTranche)
    (h : bscTranches sq principle g tp na nb = some l) :
    tranchesTotal principle.symbol l = principle.amount := by
  unfold bscTranches at h
  by_cases hsym : principle.symbol = tp.pair.base
  · rw [if_pos hsym, Option.some.injEq] at h
    rw [← h]
    exact bscTrancheList_total sq principle g tp na nb
  · rw [if_neg hsym] at h
    cases h

/-! ### Claim C1: value conservation under `conclude` -/

/-- Claim C1: for every contract whose accounts are all empty, a single
`conclude` on a price list that contains a compatible price for every
tranche succeeds, and afterwards, for every asset symbol, the sum of the
amounts held across all accounts equals the sum of the tranche amounts for
that symbol; in particular the tranche amounts of a `BoundedStableCoin` sum
exactly to the original principal, so the total it disburses is exactly the
principal. -/
theorem c1_conclude_conservation :
    (∀ (tranches : List HashTranche) (prices : List Price) (accs : List (List AssetBag)),
      (∀ t ∈ tranches, t.tidx < accs.length ∧ t.hidx < accs.length) →
      (∀ a ∈ accs, a = ([] : List AssetBag)) →
      (∀ t ∈ tranches, ∃ p ∈ prices, t.ohash.priceCompatible p = true) →
      ∃ accs', conclude tranches prices accs = .ok accs' ∧
        ∀ sym, accountsTotal sym accs' = tranchesTotal sym tranches) ∧
    (∀ (sq : ℚ → ℚ) (principle : AssetBag) (g : ℚ) (tp : Price) (na nb : ℕ)
      (l : List HashTranche),
      bscTranches sq principle g tp na nb = some l →
      tranchesTotal principle.symbol l = principle.amount) := by
  constructor
  · intro tranches prices accs hvalid hempty hcp
    obtain ⟨accs', h1, _, htot⟩ := conclude_spec tranches prices accs hvalid hcp
    refine ⟨accs', h1, fun sym => ?_⟩
    rw [htot sym, accountsTotal_empty sym accs hempty]
    ring
  · exact bscTranches_total

/-- Witness for `c1_conclude_conservation`: a one-tranche contract with two
empty accounts concluded at `2 USD:BTS` (the oracle `GE 1 USD:BTS` reveals,
the 5 BTS land in the hash account), and the two-midpoint
`BoundedStableCoin` with principal 4 BTS. -/
theorem c1_conclude_conservation_witness :
    ((∀ t ∈ [(⟨OracleHash.GE ⟨1, ⟨"USD", "BTS"⟩⟩, ⟨5, "BTS"⟩, 0, 1⟩ : HashTranche)],
        t.tidx < 2 ∧ t.hidx < 2) ∧
      (∃ accs', conclude [⟨OracleHash.GE ⟨1, ⟨"USD", "BTS"⟩⟩, ⟨5, "BTS"⟩, 0, 1⟩]
          [⟨2, ⟨"USD", "BTS"⟩⟩] [[], []] = .ok accs' ∧
        ∀ sym, accountsTotal sym accs' =
          tranchesTotal sym [⟨OracleHash.GE ⟨1, ⟨"USD", "BTS"⟩⟩, ⟨5, "BTS"⟩, 0, 1⟩])) ∧
    tranchesTotal "BTS" (bscTrancheList id ⟨4, "BTS"⟩ 2 ⟨1, ⟨"BTS", "USD"⟩⟩ 1 1) = 4 := by
  refine ⟨⟨by decide, ?_⟩, ?_⟩
  · exact c1_conclude_conservation.1 _ _ ([[], []])
      (by decide) (by decide)
      (fun t ht => ⟨⟨2, ⟨"USD", "BTS"⟩⟩, by simp, by
        simp only [List.mem_singleton] at ht
        subst ht
        decide⟩)
  · exact c1_conclude_conservation.2 id ⟨4, "BTS"⟩ 2 ⟨1, ⟨"BTS", "USD"⟩⟩ 1 1 _ rfl

/-! ### Claims C2 and C3: the bounded-value product construction -/

theorem mulChain_length (r x : ℚ) (k : ℕ) : (mulChain r x k).length = k := by
  induction k generalizing x with
  | zero => rfl
  | succ k ih => simp [mulChain, ih]

theorem mulChain_eq (r x : ℚ) (k : ℕ) :
    mulChain r x k = (List.range k).map (fun i => r ^ (i + 1) * x) := by
  induction k generalizing x with
  | zero => rfl
  | succ k ih =>
      rw [mulChain, ih (r * x), List.range_succ_eq_map, List.map_cons, List.map_map]
      congr 1
      · rw [pow_one]
      · apply List.map_congr_left
        intro i _
        show r ^ (i + 1) * (r * x) = r ^ (i + 1 + 1) * x
        ring

theorem below_eq (T : ℚ) (nb : ℕ) :
    (1 :: mulChain (1 / T) 1 nb) = (List.range (nb + 1)).map (fun i => (1 / T) ^ i) := by
  rw [mulChain_eq, List.range_succ_eq_map, List.map_cons, List.map_map]
  congr 1
  apply List.map_congr_left
  intro i _
  show (1 / T) ^ (i + 1) * 1 = (1 / T) ^ (i + 1)
  rw [mul_one]

theorem reverse_below (T : ℚ) (nb : ℕ) :
    (1 :: mulChain (1 / T) 1 nb).reverse =
      (List.range (nb + 1)).map (fun i : ℕ => T ^ ((i : ℤ) - (nb : ℤ))) := by
  rw [below_eq, ← List.map_reverse]
  conv_lhs => rw [List.range_eq_range', List.reverse_range']
  rw [List.map_map]
  apply List.map_congr_left
  intro i hi
  have hi' : i < nb + 1 := List.mem_range.mp hi
  show (1 / T) ^ (0 + (nb + 1) - 1 - i) = T ^ ((i : ℤ) - (nb : ℤ))
  have h1 : 0 + (nb + 1) - 1 - i = nb - i := by omega
  rw [h1, one_div, inv_pow, ← zpow_natCast T (nb - i), ← zpow_neg]
  congr 1
  omega

theorem series_eq (T : ℚ) (na nb : ℕ) :
    GetGeometricSeries T na nb =
      (List.range (nb + 1 + na)).map (fun i : ℕ => T ^ ((i : ℤ) - (nb : ℤ))) := by
  simp only [GetGeometricSeries]
  have hlast : ((1 :: mulChain (1 / T) 1 nb).reverse).getLastD 1 = 1 := by
    rw [List.getLastD_eq_getLast?, List.getLast?_reverse]
    rfl
  rw [hlast, reverse_below T nb, mulChain_eq]
  conv_rhs => rw [List.range_add, List.map_append, List.map_map]
  congr 1
  apply List.map_congr_left
  intro j _
  show T ^ (j + 1) * 1 = T ^ (((nb + 1 + j : ℕ) : ℤ) - (nb : ℤ))
  have h2 : ((nb + 1 + j : ℕ) : ℤ) - (nb : ℤ) = ((j + 1 : ℕ) : ℤ) := by omega
  rw [mul_one, h2, zpow_natCast]

theorem series_length (T : ℚ) (na nb : ℕ) :
    (GetGeometricSeries T na nb).length = nb + 1 + na := by
  rw [series_eq, List.length_map, List.length_range]

theorem midpoints_length (sq : ℚ → ℚ) (l : List ℚ) :
    (GetGeometricMidpoints sq l).length = l.length - 1 := by
  simp only [GetGeometricMidpoints, List.length_map, List.length_zip, List.length_tail]
  omega

theorem bscTrancheList_length (sq : ℚ → ℚ) (principle : AssetBag) (g : ℚ)
    (tp : Price) (na nb : ℕ) :
    (bscTrancheList sq principle g tp na nb).length = na + nb + 1 := by
  simp only [bscTrancheList]
  rw [List.length_append, List.length_map, List.length_zip, carve_length,
    midpoints_length, series_length]
  simp only [List.length_cons, List.length_nil, min_self]
  omega

theorem zipmap_fst {α : Type} (M sl : List ℚ) (h : M.length ≤ sl.length) (g : ℚ → α) :
    (M.zip sl).map (fun pb => g pb.1) = M.map g := by
  rw [show (fun pb : ℚ × ℚ => g pb.1) = g ∘ Prod.fst from rfl, ← List.map_map,
    List.map_fst_zip M sl h]

theorem bscTrancheList_map_ohash (sq : ℚ → ℚ) (principle : AssetBag) (g : ℚ)
    (tp : Price) (na nb : ℕ) :
    (bscTrancheList sq principle g tp na nb).map HashTranche.ohash =
      (GetGeometricMidpoints sq (GetGeometricSeries g na nb)).map
        (fun m => OracleHash.GE (Price.scale m tp))
      ++ [OracleHash.LT (Price.scale 0 tp)] := by
  simp only [bscTrancheList]
  rw [List.map_append, List.map_map]
  congr 1
  exact zipmap_fst (GetGeometricMidpoints sq (GetGeometricSeries g na nb))
    (carve (1 - 1 / g) principle.amount
      (GetGeometricMidpoints sq (GetGeometricSeries g na nb)).length).1
    (carve_length (1 - 1 / g) principle.amount
      (GetGeometricMidpoints sq (GetGeometricSeries g na nb)).length).ge
    (fun m => OracleHash.GE (Price.scale m tp))

/-- The final `LT (0 * todayprice)` tranche can never reveal for a
nonnegative observed price with the table's own pair: it always times out. -/
theorem lt_zero_never_revealed (tp obs : Price) (hpair : obs.pair = tp.pair)
    (hpos : 0 ≤ obs.price) :
    (OracleHash.LT (Price.scale 0 tp)).isRevealed obs = .ok false := by
  have hsame : obs.pair.same (Price.scale 0 tp).pair = true := by
    simp [Price.scale, hpair, Pair.same]
  have hobs : (if !(obs.pair.same (OracleHash.LT (Price.scale 0 tp)).threshprice.pair)
      then obs.flip else obs) = obs := by
    simp [OracleHash.LT, hsame]
  have hrw : (OracleHash.LT (Price.scale 0 tp)).isRevealed obs =
      Price.ltE obs (Price.scale 0 tp) := by
    unfold OracleHash.isRevealed
    rw [hobs]
    rfl
  have hdec : decide (obs.price < (Price.scale 0 tp).price) = false := by
    simp only [Price.scale, zero_mul]
    exact decide_eq_false (not_lt.mpr hpos)
  rw [hrw, ltE_ok_of_same obs (Price.scale 0 tp) hsame, hdec]

/-- Claim C2 (amended): for growth-tolerance step ratio `T` and computed step
count `n` (so that the upside multiple is `U = T^n`), `_GetGeometricSeries`
builds `2n+1` (not `2n`) symmetric geometric levels `T^(i-n)`, `i = 0..2n`,
spanning `1/T^n = 1/U` up to `T^n = U` (relative to the reference price);
`_GetGeometricMidpoints` yields the `2n` (not `2n−1`) geometric midpoints of
consecutive levels, and the resulting contract contains exactly `2n`
price-conditioned `GE` tranches at those midpoints (scaled by the reference
price) plus one final `LT 0` tranche that never reveals for a nonnegative
observed price — `2n+1` tranches in total. -/
theorem c2_bsc_structure (sq : ℚ → ℚ) (principle : AssetBag) (T : ℚ)
    (tp : Price) (n : ℕ) :
    GetGeometricSeries T n n =
      (List.range (2 * n + 1)).map (fun i : ℕ => T ^ ((i : ℤ) - (n : ℤ))) ∧
    (GetGeometricSeries T n n).head? = some (1 / T ^ n) ∧
    (GetGeometricSeries T n n).getLast? = some (T ^ n) ∧
    (GetGeometricMidpoints sq (GetGeometricSeries T n n)).length = 2 * n ∧
    (bscTrancheList sq principle T tp n n).length = 2 * n + 1 ∧
    (bscTrancheList sq principle T tp n n).map HashTranche.ohash =
      (GetGeometricMidpoints sq (GetGeometricSeries T n n)).map
        (fun m => OracleHash.GE (Price.scale m tp))
      ++ [OracleHash.LT (Price.scale 0 tp)] ∧
    (∀ obs : Price, obs.pair = tp.pair → 0 ≤ obs.price →
      (OracleHash.LT (Price.scale 0 tp)).isRevealed obs = .ok false) := by
  have h21 : n + 1 + n = 2 * n + 1 := by omega
  have hs : GetGeometricSeries T n n =
      (List.range (2 * n + 1)).map (fun i : ℕ => T ^ ((i : ℤ) - (n : ℤ))) := by
    rw [series_eq, h21]
  refine ⟨hs, ?_, ?_, ?_, ?_, bscTrancheList_map_ohash sq principle T tp n n,
    fun obs h1 h2 => lt_zero_never_revealed tp obs h1 h2⟩
  · rw [hs, List.range_succ_eq_map, List.map_cons, List.head?_cons]
    congr 1
    show T ^ (((0 : ℕ) : ℤ) - (n : ℤ)) = 1 / T ^ n
    rw [show ((0 : ℕ) : ℤ) - (n : ℤ) = -((n : ℕ) : ℤ) by omega, zpow_neg, zpow_natCast,
      one_div]
  · rw [hs, List.getLast?_eq_getElem?]
    simp only [List.length_map, List.length_range]
    rw [List.getElem?_map, List.getElem?_range (by omega : 2 * n + 1 - 1 < 2 * n + 1)]
    show some (T ^ (((2 * n + 1 - 1 : ℕ) : ℤ) - (n : ℤ))) = some (T ^ n)
    congr 1
    rw [show ((2 * n + 1 - 1 : ℕ) : ℤ) - (n : ℤ) = ((n : ℕ) : ℤ) by omega, zpow_natCast]
  · rw [midpoints_length, series_length]
    omega
  · rw [bscTrancheList_length]
    omega

/-- Claim C2 counterexample: with computed step count `n = 1` (upside
`U = T^n` with `T = 2`), the constructed contract has `2n+1 = 3` tranches,
not the `(2n−1)+1 = 2` the claim predicts. -/
theorem c2_counterexample :
    (bscTrancheList id ⟨4, "BTS"⟩ 2 ⟨1, ⟨"BTS", "USD"⟩⟩ 1 1).length = 3 ∧
    (bscTrancheList id ⟨4, "BTS"⟩ 2 ⟨1, ⟨"BTS", "USD"⟩⟩ 1 1).length ≠ 2 * 1 - 1 + 1 := by
  have hl : (bscTrancheList id ⟨4, "BTS"⟩ 2 ⟨1, ⟨"BTS", "USD"⟩⟩ 1 1).length = 3 := rfl
  exact ⟨hl, by rw [hl]; decide⟩

/-- Witness for `c2_bsc_structure` at `sq = id`, `T = 2`, `n = 1`: three
levels `[1/2, 1, 2]`, two midpoints, three tranches, and the final tranche
really times out at the concrete observation `1 BTS:USD`. -/
theorem c2_bsc_structure_witness :
    GetGeometricSeries 2 1 1 =
      (List.range (2 * 1 + 1)).map (fun i : ℕ => (2 : ℚ) ^ ((i : ℤ) - (1 : ℤ))) ∧
    (bscTrancheList id ⟨4, "BTS"⟩ 2 ⟨1, ⟨"BTS", "USD"⟩⟩ 1 1).length = 2 * 1 + 1 ∧
    ((⟨1, ⟨"BTS", "USD"⟩⟩ : Price).pair = (⟨1, ⟨"BTS", "USD"⟩⟩ : Price).pair ∧
      (0 : ℚ) ≤ (1 : ℚ) ∧
      (OracleHash.LT (Price.scale 0 ⟨1, ⟨"BTS", "USD"⟩⟩)).isRevealed
        ⟨1, ⟨"BTS", "USD"⟩⟩ = .ok false) := by
  have h := c2_bsc_structure id ⟨4, "BTS"⟩ 2 ⟨1, ⟨"BTS", "USD"⟩⟩ 1
  exact ⟨h.1, h.2.2.2.2.1,
    rfl, by norm_num, h.2.2.2.2.2.2 ⟨1, ⟨"BTS", "USD"⟩⟩ rfl (by norm_num)⟩

/-- Termination of the `Face` step-count loop for `U = 4`, `T = 1.10`. -/
theorem faceSteps_ex_4_110 : ∃ n : ℕ, (4 : ℚ) ≤ (11 / 10) ^ (n + 1) :=
  ⟨14, by norm_num⟩

/-- Claim C3 counterexample: for upside `U = 4` and tolerance `T = 1.10` the
step-count search of `BoundedStableCoin.Face` selects `n = 15`, not the
`n = 14` the claim states (indeed `4^(1/14) ≈ 1.1041 > 1.10`, equivalently
`(11/10)^14 < 4`). -/
theorem c3_counterexample :
    faceSteps 4 (11 / 10) faceSteps_ex_4_110 = 15 ∧ (15 : ℕ) ≠ 14 := by
  constructor
  · have h14 : Nat.find faceSteps_ex_4_110 = 14 := by
      rw [Nat.find_eq_iff]
      constructor
      · norm_num
      · intro k hk
        have hle : ((11 : ℚ) / 10) ^ (k + 1) ≤ (11 / 10) ^ 14 := by
          apply pow_le_pow_right₀ (by norm_num)
          omega
        have h4 : ((11 : ℚ) / 10) ^ 14 < 4 := by norm_num
        simp only [not_le]
        linarith
    rw [faceSteps, h14]
  · decide

/-- Claim C3 (amended): the `Face` loop searches upward from `n = 1`,
recomputing `U^(1/n)` each step, and stops at the first — hence minimal —
`n ≥ 1` with `U^(1/n) ≤ T` (expressed exactly as `U ≤ T^n`); in particular
for `U = 4` and `T = 1.10` it selects `n = 15`. -/
theorem c3_face_minimal :
    (∀ (U T : ℚ) (h : ∃ n : ℕ, U ≤ T ^ (n + 1)),
      1 ≤ faceSteps U T h ∧
      U ≤ T ^ faceSteps U T h ∧
      ∀ m : ℕ, 1 ≤ m → m < faceSteps U T h → T ^ m < U) ∧
    faceSteps 4 (11 / 10) faceSteps_ex_4_110 = 15 := by
  constructor
  · intro U T h
    refine ⟨by simp [faceSteps], Nat.find_spec h, fun m h1 h2 => ?_⟩
    have hm : m - 1 < Nat.find h := by
      simp only [faceSteps] at h2
      omega
    have := Nat.find_min h hm
    rw [show m - 1 + 1 = m by omega] at this
    exact not_le.mp this
  · have h14 : Nat.find faceSteps_ex_4_110 = 14 := by
      rw [Nat.find_eq_iff]
      constructor
      · norm_num
      · intro k hk
        have hle : ((11 : ℚ) / 10) ^ (k + 1) ≤ (11 / 10) ^ 14 := by
          apply pow_le_pow_right₀ (by norm_num)
          omega
        have h4 : ((11 : ℚ) / 10) ^ 14 < 4 := by norm_num
        simp only [not_le]
        linarith
    rw [faceSteps, h14]

/-- Witness for `c3_face_minimal`, discharging the termination hypothesis at
`U = 4`, `T = 11/10`. -/
theorem c3_face_minimal_witness :
    1 ≤ faceSteps 4 (11 / 10) faceSteps_ex_4_110 ∧
    (4 : ℚ) ≤ (11 / 10) ^ faceSteps 4 (11 / 10) faceSteps_ex_4_110 :=
  ⟨(c3_face_minimal.1 4 (11 / 10) faceSteps_ex_4_110).1,
   (c3_face_minimal.1 4 (11 / 10) faceSteps_ex_4_110).2.1⟩

/-! ## `LadderElements.py`: `SimpleMerkleRoot`

The reduction pass of the source is the loop `for i in range(len(hashes))[0::2]`:
at each even index `i`, if `i < ilast` (`ilast = len − 1`) the pair
`hashes[i] ++ hashes[i+1]` is hashed, otherwise `hashes[i]` is carried up
unchanged. `merkleReduceFrom H l i` is that loop from index `i` on. -/

def merkleReduceFrom (H : List ℕ → List ℕ) (l : List (List ℕ)) (i : ℕ) :
    List (List ℕ) :=
  if h : i < l.length then
    (if i < l.length - 1 then H (l.getD i [] ++ l.getD (i + 1) []) else l.getD i []) ::
      merkleReduceFrom H l (i + 2)
  else []
termination_by l.length - i
decreasing_by omega

/-- One reduction level of `SimpleMerkleRoot` (the whole index loop). -/
def merkleReduce (H : List ℕ → List ℕ) (l : List (List ℕ)) : List (List ℕ) :=
  merkleReduceFrom H l 0

theorem merkleReduceFrom_stop (H : List ℕ → List ℕ) (l : List (List ℕ)) (i : ℕ)
    (h : ¬ i < l.length) : merkleReduceFrom H l i = [] := by
  unfold merkleReduceFrom
  rw [dif_neg h]

theorem merkleReduceFrom_shift (H : List ℕ → List ℕ) (a b : List ℕ)
    (rest : List (List ℕ)) :
    ∀ (fuel i : ℕ), rest.length - i ≤ fuel →
      merkleReduceFrom H (a :: b :: rest) (i + 2) = merkleReduceFrom H rest i := by
  intro fuel
  induction fuel with
  | zero =>
      intro i hi
      have h1 : ¬ (i + 2 < (a :: b :: rest).length) := by
        simp only [List.length_cons]
        omega
      have h2 : ¬ (i < rest.length) := by omega
      rw [merkleReduceFrom_stop _ _ _ h1, merkleReduceFrom_stop _ _ _ h2]
  | succ fuel ih =>
      intro i hi
      by_cases h : i < rest.length
      · have h1 : i + 2 < (a :: b :: rest).length := by
          simp only [List.length_cons]
          omega
        conv_lhs => rw [merkleReduceFrom]
        conv_rhs => rw [merkleReduceFrom]
        rw [dif_pos h1, dif_pos h]
        have e1 : (a :: b :: rest).getD (i + 2) [] = rest.getD i [] := by
          show (a :: b :: rest).getD (i + 1 + 1) [] = rest.getD i []
          rw [List.getD_cons_succ, List.getD_cons_succ]
        have e2 : (a :: b :: rest).getD (i + 2 + 1) [] = rest.getD (i + 1) [] := by
          show (a :: b :: rest).getD (i + 1 + 1 + 1) [] = rest.getD (i + 1) []
          rw [List.getD_cons_succ, List.getD_cons_succ]
        have hiff : (i + 2 < (a :: b :: rest).length - 1) ↔ (i < rest.length - 1) := by
          simp only [List.length_cons]
          omega
        congr 1
        · rw [if_congr hiff (by rw [e1, e2]) e1]
        · exact ih (i + 2) (by omega)
      · have h1 : ¬ (i + 2 < (a :: b :: rest).length) := by
          simp only [List.length_cons]
          omega
        rw [merkleReduceFrom_stop _ _ _ h1, merkleReduceFrom_stop _ _ _ h]

theorem merkleReduce_nil (H : List ℕ → List ℕ) : merkleReduce H [] = [] :=
  merkleReduceFrom_stop H [] 0 (by simp)

theorem merkleReduce_single (H : List ℕ → List ℕ) (a : List ℕ) :
    merkleReduce H [a] = [a] := by
  unfold merkleReduce
  rw [merkleReduceFrom, dif_pos (by simp : (0 : ℕ) < [a].length)]
  rw [merkleReduceFrom_stop _ _ _ (by simp)]
  simp

theorem merkleReduce_cons2 (H : List ℕ → List ℕ) (a b : List ℕ)
    (rest : List (List ℕ)) :
    merkleReduce H (a :: b :: rest) = H (a ++ b) :: merkleReduce H rest := by
  unfold merkleReduce
  rw [merkleReduceFrom, dif_pos (by simp : (0 : ℕ) < (a :: b :: rest).length)]
  rw [merkleReduceFrom_shift H a b rest rest.length 0 (by omega)]
  have hcond : (0 : ℕ) < (a :: b :: rest).length - 1 := by
    simp only [List.length_cons]
    omega
  rw [if_pos hcond]
  rfl

theorem merkleReduce_length_fuel (H : List ℕ → List ℕ) :
    ∀ (n : ℕ) (l : List (List ℕ)), l.length ≤ n →
      (merkleReduce H l).length = (l.length + 1) / 2 := by
  intro n
  induction n with
  | zero =>
      intro l hl
      match l with
      | [] => simp [merkleReduce_nil]
      | a :: t => simp at hl
  | succ n ih =>
      intro l hl
      match l with
      | [] => simp [merkleReduce_nil]
      | [a] => simp [merkleReduce_single]
      | a :: b :: rest =>
          rw [merkleReduce_cons2, List.length_cons,
            ih rest (by simp only [List.length_cons] at hl; omega)]
          simp only [List.length_cons]
          omega

theorem merkleReduce_length (H : List ℕ → List ℕ) (l : List (List ℕ)) :
    (merkleReduce H l).length = (l.length + 1) / 2 :=
  merkleReduce_length_fuel H l.length l le_rfl

/-- `SimpleMerkleRoot`: the empty list is replaced by `[H(empty bytes)]`
(and then immediately returned, being a singleton), a singleton is returned
as is, and otherwise one reduction level is computed and the function
recurses. -/
def SimpleMerkleRoot (H : List ℕ → List ℕ) (hashes : List (List ℕ)) : List ℕ :=
  match hashes with
  | [] => H []
  | [a] => a
  | a :: b :: rest => SimpleMerkleRoot H (merkleReduce H (a :: b :: rest))
termination_by hashes.length
decreasing_by
  rw [merkleReduce_length]
  simp only [List.length_cons]
  omega

/-- Claim-side formulation of one reduction level: replace each adjacent
pair `(a, b)`, taken left to right, by `H (a ‖ b)`; carry the last element
of an odd-length level up unchanged. -/
def merklePairStep (H : List ℕ → List ℕ) : List (List ℕ) → List (List ℕ)
  | [] => []
  | [a] => [a]
  | a :: b :: rest => H (a ++ b) :: merklePairStep H rest

theorem merklePairStep_length_fuel (H : List ℕ → List ℕ) :
    ∀ (n : ℕ) (l : List (List ℕ)), l.length ≤ n →
      (merklePairStep H l).length = (l.length + 1) / 2 := by
  intro n
  induction n with
  | zero =>
      intro l hl
      match l with
      | [] => simp [merklePairStep]
      | a :: t => simp at hl
  | succ n ih =>
      intro l hl
      match l with
      | [] => simp [merklePairStep]
      | [a] => simp [merklePairStep]
      | a :: b :: rest =>
          simp only [merklePairStep, List.length_cons]
          rw [ih rest (by simp only [List.length_cons] at hl; omega)]
          omega

theorem merklePairStep_length (H : List ℕ → List ℕ) (l : List (List ℕ)) :
    (merklePairStep H l).length = (l.length + 1) / 2 :=
  merklePairStep_length_fuel H l.length l le_rfl

/-- The claim's description of the whole aggregation: recurse on reduction
levels until one hash remains; an empty list yields the hash of the empty
byte string. -/
def merkleRootSpec (H : List ℕ → List ℕ) (hashes : List (List ℕ)) : List ℕ :=
  match hashes with
  | [] => H []
  | [a] => a
  | a :: b :: rest => merkleRootSpec H (merklePairStep H (a :: b :: rest))
termination_by hashes.length
decreasing_by
  rw [merklePairStep_length]
  simp only [List.length_cons]
  omega

/-- The source's even-index loop computes exactly the claim's left-to-right
adjacent pairing with the odd last element carried up unchanged. -/
theorem merkleReduce_eq_pairStep_fuel (H : List ℕ → List ℕ) :
    ∀ (n : ℕ) (l : List (List ℕ)), l.length ≤ n →
      merkleReduce H l = merklePairStep H l := by
  intro n
  induction n with
  | zero =>
      intro l hl
      match l with
      | [] => rw [merkleReduce_nil]; simp [merklePairStep]
      | a :: t => simp at hl
  | succ n ih =>
      intro l hl
      match l with
      | [] => rw [merkleReduce_nil]; simp [merklePairStep]
      | [a] => rw [merkleReduce_single]; simp [merklePairStep]
      | a :: b :: rest =>
          rw [merkleReduce_cons2,
            ih rest (by simp only [List.length_cons] at hl; omega)]
          simp [merklePairStep]

theorem merkleReduce_eq_pairStep (H : List ℕ → List ℕ) (l : List (List ℕ)) :
    merkleReduce H l = merklePairStep H l :=
  merkleReduce_eq_pairStep_fuel H l.length l le_rfl

theorem merkle_agree_fuel (H : List ℕ → List ℕ) :
    ∀ (n : ℕ) (l : List (List ℕ)), l.length ≤ n →
      SimpleMerkleRoot H l = merkleRootSpec H l := by
  intro n
  induction n with
  | zero =>
      intro l hl
      match l with
      | [] => simp only [SimpleMerkleRoot, merkleRootSpec]
      | a :: t => simp at hl
  | succ n ih =>
      intro l hl
      match l with
      | [] => simp only [SimpleMerkleRoot, merkleRootSpec]
      | [a] => simp only [SimpleMerkleRoot, merkleRootSpec]
      | a :: b :: rest =>
          simp only [SimpleMerkleRoot, merkleRootSpec]
          rw [merkleReduce_eq_pairStep]
          apply ih
          rw [merklePairStep_length]
          simp only [List.length_cons] at hl ⊢
          omega

/-- Claim C5: `SimpleMerkleRoot` (translated from the source's even-index
loop) coincides with the claim's description — repeatedly replace each
adjacent pair `(a, b)`, left to right, by `H (a ‖ b)`, carry the last
element of an odd-length level up unchanged (not duplicated), recurse until
one hash remains; the empty list yields `H` of the empty byte string, and a
one-element list yields that element itself. -/
theorem c5_merkle_refinement :
    (∀ (H : List ℕ → List ℕ) (l : List (List ℕ)),
      SimpleMerkleRoot H l = merkleRootSpec H l) ∧
    (∀ H : List ℕ → List ℕ, SimpleMerkleRoot H [] = H []) ∧
    (∀ (H : List ℕ → List ℕ) (a : List ℕ), SimpleMerkleRoot H [a] = a) ∧
    (∀ (H : List ℕ → List ℕ) (a b c d e : List ℕ),
      SimpleMerkleRoot H [a, b, c, d, e] =
        H (H (H (a ++ b) ++ H (c ++ d)) ++ e)) := by
  refine ⟨fun H l => merkle_agree_fuel H l.length l le_rfl,
    fun H => by simp only [SimpleMerkleRoot],
    fun H a => by simp only [SimpleMerkleRoot], fun H a b c d e => ?_⟩
  simp only [SimpleMerkleRoot]
  rw [merkleReduce_cons2, merkleReduce_cons2, merkleReduce_single]
  simp only [SimpleMerkleRoot]
  rw [merkleReduce_cons2, merkleReduce_single]
  simp only [SimpleMerkleRoot]
  rw [merkleReduce_cons2, merkleReduce_nil]
  simp only [SimpleMerkleRoot]

/-! ## `HashLadder.py`: the `HashLadder` class

The kernel chain `ladder` is built by `ladder[0] = H(rootHash)`,
`ladder[i] = H(ladder[i-1])`; `kernelAt` is that list read off by index. -/

def kernelAt (H : List ℕ → List ℕ) (root : List ℕ) : ℕ → List ℕ
  | 0 => H root
  | i + 1 => H (kernelAt H root i)

/-- The pretext at index `i`: `"%s:i%d:%s" % (header, i, ladder[i].hex())`. -/
def pretextAt (H : List ℕ → List ℕ) (root : List ℕ) (header : String) (i : ℕ) : String :=
  header ++ ":i" ++ toString i ++ ":" ++ bytesHex (kernelAt H root i)

structure HashLadder where
  pretexts : List String
  preimages : List (List ℕ)
  hashes : List (List ℕ)
deriving DecidableEq, Repr

/-- `HashLadder.__init__`: rejects a seed whose hex is not 64 digits (i.e.
not exactly 32 bytes) and a non-positive `numHashes`; otherwise produces the
pretexts, their UTF-8 hashes (preimages), and the hashes of the preimages. -/
def HashLadder.make (H : List ℕ → List ℕ) (header : String) (rootHash : List ℕ)
    (numHashes : ℕ) : Option HashLadder :=
  if (bytesHex rootHash).length = 64 then
    if 0 < numHashes then
      some { pretexts := (List.range numHashes).map (pretextAt H rootHash header),
             preimages := (List.range numHashes).map
               (fun i => H (strUtf8 (pretextAt H rootHash header i))),
             hashes := (List.range numHashes).map
               (fun i => H (H (strUtf8 (pretextAt H rootHash header i)))) }
    else none
  else none

/-- `HashLadder.getMerkleRoot`. -/
def HashLadder.merkleRoot (H : List ℕ → List ℕ) (L : HashLadder) : List ℕ :=
  SimpleMerkleRoot H L.hashes

/-! ### Claim C4: the ladder construction -/

/-- Claim C4: for a 32-byte seed `S`, header `H` and `N > 0` the
construction produces exactly `N` triples with `kernel[0] = hash(S)`,
`kernel[i] = hash(kernel[i-1])`, `pretext[i] = header + ":i" + i + ":" +
lowercase hex of kernel[i]`, `preimage[i] = hash(utf8(pretext[i]))` and
`hash[i] = hash(preimage[i])`; the construction fails when the seed is not
exactly 32 bytes or `N` is not positive. -/
theorem c4_hashladder :
    (∀ (H : List ℕ → List ℕ) (header : String) (S : List ℕ) (N : ℕ),
      S.length = 32 → 0 < N →
      ∃ L : HashLadder, HashLadder.make H header S N = some L ∧
        L.pretexts.length = N ∧ L.preimages.length = N ∧ L.hashes.length = N ∧
        kernelAt H S 0 = H S ∧
        (∀ i : ℕ, 1 ≤ i → kernelAt H S i = H (kernelAt H S (i - 1))) ∧
        (∀ i < N, L.pretexts[i]? =
          some (header ++ ":i" ++ toString i ++ ":" ++ bytesHex (kernelAt H S i))) ∧
        (∀ i < N, L.preimages[i]? =
          some (H (strUtf8 (header ++ ":i" ++ toString i ++ ":" ++
            bytesHex (kernelAt H S i))))) ∧
        (∀ i < N, L.hashes[i]? = (L.preimages[i]?).map H)) ∧
    (∀ (H : List ℕ → List ℕ) (header : String) (S : List ℕ) (N : ℕ),
      S.length ≠ 32 ∨ N = 0 → HashLadder.make H header S N = none) := by
  constructor
  · intro H header S N hS hN
    refine ⟨{ pretexts := (List.range N).map (pretextAt H S header),
              preimages := (List.range N).map
                (fun i => H (strUtf8 (pretextAt H S header i))),
              hashes := (List.range N).map
                (fun i => H (H (strUtf8 (pretextAt H S header i)))) },
      ?_, ?_, ?_, ?_, rfl, ?_, ?_, ?_, ?_⟩
    · unfold HashLadder.make
      rw [if_pos (by rw [bytesHex_length, hS]), if_pos hN]
    · simp
    · simp
    · simp
    · intro i hi
      match i, hi with
      | i + 1, _ => rfl
    · intro i hi
      rw [List.getElem?_map, List.getElem?_range hi]
      rfl
    · intro i hi
      rw [List.getElem?_map, List.getElem?_range hi]
      rfl
    · intro i hi
      rw [List.getElem?_map, List.getElem?_map, List.getElem?_range hi]
      rfl
  · intro H header S N hbad
    unfold HashLadder.make
    rcases hbad with hbad | hbad
    · rw [if_neg]
      rw [bytesHex_length]
      omega
    · rw [hbad]
      by_cases hlen : (bytesHex S).length = 64
      · rw [if_pos hlen, if_neg (by omega)]
      · rw [if_neg hlen]

/-- Witness for `c4_hashladder` at the toy hash `fun l => [l.length % 256]`,
the all-zero 32-byte seed and `N = 2`. -/
theorem c4_hashladder_witness :
    ((List.replicate 32 0 : List ℕ).length = 32 ∧ 0 < 2 ∧
      (∃ L : HashLadder,
        HashLadder.make (fun l => [l.length % 256]) "h" (List.replicate 32 0) 2 =
          some L ∧
        L.pretexts.length = 2 ∧ L.preimages.length = 2 ∧ L.hashes.length = 2 ∧
        kernelAt (fun l => [l.length % 256]) (List.replicate 32 0) 0 =
          (fun l : List ℕ => [l.length % 256]) (List.replicate 32 0) ∧
        (∀ i : ℕ, 1 ≤ i →
          kernelAt (fun l => [l.length % 256]) (List.replicate 32 0) i =
            (fun l : List ℕ => [l.length % 256])
              (kernelAt (fun l => [l.length % 256]) (List.replicate 32 0) (i - 1))) ∧
        (∀ i < 2, L.pretexts[i]? =
          some ("h" ++ ":i" ++ toString i ++ ":" ++
            bytesHex (kernelAt (fun l => [l.length % 256]) (List.replicate 32 0) i))) ∧
        (∀ i < 2, L.preimages[i]? =
          some ((fun l : List ℕ => [l.length % 256])
            (strUtf8 ("h" ++ ":i" ++ toString i ++ ":" ++
              bytesHex (kernelAt (fun l => [l.length % 256]) (List.replicate 32 0) i))))) ∧
        (∀ i < 2, L.hashes[i]? =
          (L.preimages[i]?).map (fun l => [l.length % 256])))) ∧
    HashLadder.make (fun l => [l.length % 256]) "h" (List.replicate 32 0) 0 = none :=
  ⟨⟨by decide, by decide,
    c4_hashladder.1 (fun l => [l.length % 256]) "h" (List.replicate 32 0) 2
      (by decide) (by decide)⟩,
   c4_hashladder.2 (fun l => [l.length % 256]) "h" (List.replicate 32 0) 0
     (Or.inr rfl)⟩

instance {ε α : Type} [DecidableEq ε] [DecidableEq α] : DecidableEq (Except ε α) := fun a b =>
  match a, b with
  | .error e1, .error e2 =>
      if h : e1 = e2 then .isTrue (by rw [h]) else .isFalse (fun hc => h (Except.error.inj hc))
  | .error _, .ok _ => .isFalse (fun hc => Except.noConfusion hc)
  | .ok _, .error _ => .isFalse (fun hc => Except.noConfusion hc)
  | .ok x, .ok y =>
      if h : x = y then .isTrue (by rw [h]) else .isFalse (fun hc => h (Except.ok.inj hc))

/-! ## `HashLadder.py`: the `HashTable` class (threshold/predicate core)

A `HashTable` stores its price thresholds (`self.prices`), the ladder
pretexts, and `self.decadefactor`, from which the `ascending`/`descending`
flags are computed as in the source (`factor > 1` resp. `factor < 1`).
`getPrices` itself involves the real-valued `factor ** (1/steps)`, so the
stored threshold list is carried abstractly here; the invariant
`len(hashes) == len(prices)` of the source is the `hlen` field. -/

structure HashTableM where
  decadefactor : ℚ
  prices : List ℚ
  pretexts : List String
  hlen : pretexts.length = prices.length

/-- `self.ascending = (self.decadefactor > 1)`. -/
def HashTableM.ascending (t : HashTableM) : Bool := decide (1 < t.decadefactor)

/-- `self.descending = (self.decadefactor < 1)`. -/
def HashTableM.descending (t : HashTableM) : Bool := decide (t.decadefactor < 1)

/-- `HashTable.checkConditionMet`: `obsprice >= price` for a descending
table, `obsprice <= price` for an ascending one, an exception otherwise. -/
def checkConditionMet (t : HashTableM) (price obsprice : ℚ) : Except String Bool :=
  if t.descending then .ok (decide (price ≤ obsprice))
  else if t.ascending then .ok (decide (obsprice ≤ price))
  else .error "Condition eval: table neither ascending nor descending."

/-- The scan of `HashTable.getGenerator`: first index whose threshold
satisfies the predicate, returning that index's pretext (`None` when the
loop completes without a hit). -/
def genScan (pred : ℚ → Bool) : List (ℚ × String) → Option String
  | [] => none
  | ps :: rest => if pred ps.1 then some ps.2 else genScan pred rest

/-- `HashTable.getGenerator`. -/
def getGenerator (t : HashTableM) (obsprice : ℚ) : Except String (Option String) :=
  if t.descending then
    .ok (genScan (fun p => decide (p ≤ obsprice)) (t.prices.zip t.pretexts))
  else if t.ascending then
    .ok (genScan (fun p => decide (obsprice ≤ p)) (t.prices.zip t.pretexts))
  else
    .error "Don't know how to select generator for table neither ascending nor descending."

/-! ### Claims C6 and C10: contiguous reveal runs and the missing generator -/

theorem genScan_eq (pred : ℚ → Bool) :
    ∀ (ps : List ℚ) (ss : List String), ps.length = ss.length →
      genScan pred (ps.zip ss) = ss[ps.findIdx pred]? := by
  intro ps
  induction ps with
  | nil =>
      intro ss h
      match ss, h with
      | [], _ => rfl
  | cons p pt ih =>
      intro ss h
      match ss with
      | s :: st =>
          rw [List.zip_cons_cons, List.findIdx_cons]
          by_cases hp : pred p
          · simp [genScan, hp]
          · have := ih st (by simpa using h)
            simp only [genScan, hp, Bool.false_eq_true, if_false, cond_false]
            rw [this, List.getElem?_cons_succ]

theorem findIdx_le_len (pred : ℚ → Bool) :
    ∀ ps : List ℚ, ps.findIdx pred ≤ ps.length := by
  intro ps
  induction ps with
  | nil => simp
  | cons p pt ih =>
      rw [List.findIdx_cons]
      by_cases hp : pred p
      · simp [hp]
      · simp only [hp, cond_false, List.length_cons]
        omega

theorem findIdx_min (pred : ℚ → Bool) :
    ∀ (ps : List ℚ) (i : ℕ) (hi : i < ps.length), i < ps.findIdx pred →
      pred (ps.get ⟨i, hi⟩) = false := by
  intro ps
  induction ps with
  | nil => intro i hi; simp at hi
  | cons p pt ih =>
      intro i hi hlt
      rw [List.findIdx_cons] at hlt
      by_cases hp : pred p
      · simp [hp] at hlt
      · match i with
        | 0 => simpa using hp
        | j + 1 =>
            simp only [hp, cond_false] at hlt
            exact ih j (by simpa using hi) (by omega)

theorem findIdx_hit (pred : ℚ → Bool) :
    ∀ (ps : List ℚ) (h : ps.findIdx pred < ps.length),
      pred (ps.get ⟨ps.findIdx pred, h⟩) = true := by
  intro ps h
  simpa using @List.findIdx_getElem _ pred ps h

/-- On a threshold list along which the predicate is upward closed, the hit
set is exactly the suffix starting at the first hit, and the generator scan
returns the pretext at that first hit. -/
theorem run_exists (pred : ℚ → Bool) (ps : List ℚ) (ss : List String)
    (hlen : ss.length = ps.length)
    (hmono : ∀ i j (hi : i < ps.length) (hj : j < ps.length), i ≤ j →
      pred (ps.get ⟨i, hi⟩) = true → pred (ps.get ⟨j, hj⟩) = true) :
    ∃ k, k ≤ ps.length ∧
      (∀ i (hi : i < ps.length), (pred (ps.get ⟨i, hi⟩) = true ↔ k ≤ i)) ∧
      (k < ps.length → ∃ s, ss[k]? = some s ∧ genScan pred (ps.zip ss) = some s) := by
  refine ⟨ps.findIdx pred, findIdx_le_len pred ps, ?_, ?_⟩
  · intro i hi
    constructor
    · intro hp
      by_contra hk
      have := findIdx_min pred ps i hi (by omega)
      rw [hp] at this
      cases this
    · intro hk
      have hfl : ps.findIdx pred < ps.length := by omega
      exact hmono (ps.findIdx pred) i hfl hi hk (findIdx_hit pred ps hfl)
  · intro hk
    have hks : ps.findIdx pred < ss.length := by omega
    refine ⟨ss.get ⟨ps.findIdx pred, hks⟩, ?_, ?_⟩
    · exact List.getElem?_eq_getElem hks
    · rw [genScan_eq pred ps ss hlen.symm, List.getElem?_eq_getElem hks]
      rfl

/-- Claim C6: for a `HashTable` whose flagged direction matches its strictly
monotonic threshold sequence, and any observed price, the set of indices at
which `checkConditionMet` holds is a single contiguous run anchored at the
tail end of the stored order (the indices `≥ k` for some `k`), and
`getGenerator` returns the pretext at the first index (in stored order) at
which the predicate holds. -/
theorem c6_condition_run (t : HashTableM) (obs : ℚ)
    (hdir : (t.decadefactor < 1 ∧ t.prices.Pairwise (fun a b => b < a)) ∨
            (1 < t.decadefactor ∧ t.prices.Pairwise (fun a b => a < b))) :
    ∃ k, k ≤ t.prices.length ∧
      (∀ i (hi : i < t.prices.length),
        (checkConditionMet t (t.prices.get ⟨i, hi⟩) obs = .ok true ↔ k ≤ i)) ∧
      (k < t.prices.length →
        ∃ s, t.pretexts[k]? = some s ∧ getGenerator t obs = .ok (some s)) := by
  rcases hdir with ⟨hf, hmono⟩ | ⟨hf, hmono⟩
  · have hd : t.descending = true := by simp [HashTableM.descending, hf]
    have hpw := List.pairwise_iff_get.mp hmono
    obtain ⟨k, hk1, hk2, hk3⟩ := run_exists (fun p => decide (p ≤ obs)) t.prices
      t.pretexts t.hlen
      (fun i j hi hj hij hp => by
        rcases Nat.lt_or_ge i j with hij' | hij'
        · have := hpw ⟨i, hi⟩ ⟨j, hj⟩ hij'
          simp only [decide_eq_true_eq] at hp ⊢
          linarith
        · have : i = j := by omega
          subst this
          exact hp)
    refine ⟨k, hk1, ?_, ?_⟩
    · intro i hi
      rw [← hk2 i hi]
      simp [checkConditionMet, hd]
    · intro hklt
      obtain ⟨s, hs1, hs2⟩ := hk3 hklt
      exact ⟨s, hs1, by simp [getGenerator, hd]; exact hs2⟩
  · have hd : t.descending = false := by
      simp only [HashTableM.descending, decide_eq_false_iff_not, not_lt]
      linarith
    have ha : t.ascending = true := by simp [HashTableM.ascending, hf]
    have hpw := List.pairwise_iff_get.mp hmono
    obtain ⟨k, hk1, hk2, hk3⟩ := run_exists (fun p => decide (obs ≤ p)) t.prices
      t.pretexts t.hlen
      (fun i j hi hj hij hp => by
        rcases Nat.lt_or_ge i j with hij' | hij'
        · have := hpw ⟨i, hi⟩ ⟨j, hj⟩ hij'
          simp only [decide_eq_true_eq] at hp ⊢
          linarith
        · have : i = j := by omega
          subst this
          exact hp)
    refine ⟨k, hk1, ?_, ?_⟩
    · intro i hi
      rw [← hk2 i hi]
      simp [checkConditionMet, hd, ha]
    · intro hklt
      obtain ⟨s, hs1, hs2⟩ := hk3 hklt
      exact ⟨s, hs1, by simp [getGenerator, hd, ha]; exact hs2⟩

/-- Witness for `c6_condition_run`: the descending table with thresholds
`[4, 2, 1]` and pretexts `["a","b","c"]` observed at price `2`. -/
theorem c6_condition_run_witness :
    ∃ k, k ≤ ([(4 : ℚ), 2, 1]).length ∧
      (∀ i (hi : i < ([(4 : ℚ), 2, 1]).length),
        (checkConditionMet ⟨1/2, [4, 2, 1], ["a", "b", "c"], rfl⟩
            (([(4 : ℚ), 2, 1]).get ⟨i, hi⟩) 2 = .ok true ↔ k ≤ i)) ∧
      (k < ([(4 : ℚ), 2, 1]).length →
        ∃ s, (["a", "b", "c"])[k]? = some s ∧
          getGenerator ⟨1/2, [4, 2, 1], ["a", "b", "c"], rfl⟩ 2 = .ok (some s)) :=
  c6_condition_run ⟨1/2, [4, 2, 1], ["a", "b", "c"], rfl⟩ 2
    (Or.inl ⟨by norm_num, by
      simp only [List.pairwise_cons, List.mem_cons, List.mem_singleton,
        List.not_mem_nil, List.Pairwise.nil]
      norm_num⟩)

theorem genScan_none (pred : ℚ → Bool) :
    ∀ pairs : List (ℚ × String), (∀ x ∈ pairs, pred x.1 = false) →
      genScan pred pairs = none := by
  intro pairs
  induction pairs with
  | nil => intro _; rfl
  | cons x rest ih =>
      intro h
      have hx := h x (by simp)
      simp only [genScan, hx, Bool.false_eq_true, if_false]
      exact ih (fun y hy => h y (by simp [hy]))

/-- Claim C10: for a directed table (ascending or descending) and an
observed price for which the predicate holds at no threshold index,
`getGenerator` falls off the end of its loop and returns `None` — it
neither raises nor returns a pretext. -/
theorem c10_generator_none (t : HashTableM) (obs : ℚ)
    (hdir : t.decadefactor < 1 ∨ 1 < t.decadefactor)
    (hnone : ∀ i (hi : i < t.prices.length),
      checkConditionMet t (t.prices.get ⟨i, hi⟩) obs ≠ .ok true) :
    getGenerator t obs = .ok none := by
  rcases hdir with hf | hf
  · have hd : t.descending = true := by simp [HashTableM.descending, hf]
    have hzip : ∀ x ∈ t.prices.zip t.pretexts, (fun p => decide (p ≤ obs)) x.1 = false := by
      intro x hx
      obtain ⟨hp, _⟩ := List.of_mem_zip hx
      obtain ⟨⟨i, hi⟩, hget⟩ := List.mem_iff_get.mp hp
      have := hnone i hi
      simp only [checkConditionMet, hd, if_true, ite_true, ne_eq, Except.ok.injEq] at this
      rw [hget] at this
      simpa using this
    simp only [getGenerator, hd, if_true, ite_true]
    rw [genScan_none _ _ hzip]
  · have hd : t.descending = false := by
      simp only [HashTableM.descending, decide_eq_false_iff_not, not_lt]
      linarith
    have ha : t.ascending = true := by simp [HashTableM.ascending, hf]
    have hzip : ∀ x ∈ t.prices.zip t.pretexts, (fun p => decide (obs ≤ p)) x.1 = false := by
      intro x hx
      obtain ⟨hp, _⟩ := List.of_mem_zip hx
      obtain ⟨⟨i, hi⟩, hget⟩ := List.mem_iff_get.mp hp
      have := hnone i hi
      simp only [checkConditionMet, hd, ha, if_true, ite_true, Bool.false_eq_true,
        if_false, ite_false, ne_eq, Except.ok.injEq] at this
      rw [hget] at this
      simpa using this
    simp only [getGenerator, hd, ha, Bool.false_eq_true, if_false, ite_false,
      if_true, ite_true]
    rw [genScan_none _ _ hzip]

/-- Witness for `c10_generator_none`: the descending table `[4, 2, 1]`
observed at `0` (strictly below every threshold) yields `ok None`. -/
theorem c10_generator_none_witness :
    getGenerator ⟨1/2, [4, 2, 1], ["a", "b", "c"], rfl⟩ 0 = .ok none := by
  have hd : (⟨1/2, [4, 2, 1], ["a", "b", "c"], rfl⟩ : HashTableM).descending = true := by
    simp only [HashTableM.descending, decide_eq_true_eq]
    norm_num
  refine c10_generator_none ⟨1/2, [4, 2, 1], ["a", "b", "c"], rfl⟩ 0
    (Or.inl (by norm_num)) ?_
  intro i hi
  match i, hi with
  | 0, _ =>
      show checkConditionMet _ 4 0 ≠ .ok true
      simp only [checkConditionMet, hd, if_true, ite_true, ne_eq, Except.ok.injEq,
        decide_eq_true_eq]
      norm_num
  | 1, _ =>
      show checkConditionMet _ 2 0 ≠ .ok true
      simp only [checkConditionMet, hd, if_true, ite_true, ne_eq, Except.ok.injEq,
        decide_eq_true_eq]
      norm_num
  | 2, _ =>
      show checkConditionMet _ 1 0 ≠ .ok true
      simp only [checkConditionMet, hd, if_true, ite_true, ne_eq, Except.ok.injEq,
        decide_eq_true_eq]
      norm_num

/-! ## `PriceIterators.py`: `_LogSpacer.staggerRatioPair`

`int(math.log(idx, 2))` is the floor base-2 logarithm, embedded exactly as
`Nat.log 2`; `2 ** int(math.log(idx, 2))` is then the largest power of two
`≤ idx`. The numerator/denominator arithmetic is float in the source and
exact here. -/

def staggerRatioPair : ℕ → ℚ × ℚ
  | 0 => (0, 1)
  | k + 1 =>
      let msbidx : ℕ := 2 ^ Nat.log 2 (k + 1)
      let d : ℚ := (msbidx : ℚ) * 2
      let p0 := staggerRatioPair (k + 1 - msbidx)
      (1 + p0.1 * d / p0.2, d)
termination_by idx => idx
decreasing_by
  have h1 : 1 ≤ 2 ^ Nat.log 2 (k + 1) := Nat.one_le_two_pow
  have h2 : 2 ^ Nat.log 2 (k + 1) ≤ k + 1 := Nat.pow_log_le_self 2 (by omega)
  omega

/-- The stagger offset `n/d` encoded by `staggerRatioPair`. -/
def staggerOffset (idx : ℕ) : ℚ :=
  (staggerRatioPair idx).1 / (staggerRatioPair idx).2

theorem staggerRatioPair_zero : staggerRatioPair 0 = (0, 1) := by
  simp [staggerRatioPair]

theorem staggerOffset_zero : staggerOffset 0 = 0 := by
  simp [staggerOffset, staggerRatioPair_zero]

theorem stagger_snd_pos : ∀ idx : ℕ, 0 < (staggerRatioPair idx).2 := by
  intro idx
  match idx with
  | 0 => simp [staggerRatioPair_zero]
  | k + 1 =>
      simp only [staggerRatioPair]
      have h0 : 1 ≤ 2 ^ Nat.log 2 (k + 1) := Nat.one_le_two_pow
      have h : (0 : ℚ) < ((2 ^ Nat.log 2 (k + 1) : ℕ) : ℚ) := by
        exact_mod_cast h0
      linarith

/-- The recursion of the source as an identity on offsets:
`offset(idx) = 1/(2·msb) + offset(idx − msb)`. -/
theorem staggerOffset_rec (idx : ℕ) (h : 0 < idx) :
    staggerOffset idx =
      1 / (2 : ℚ) ^ (Nat.log 2 idx + 1) + staggerOffset (idx - 2 ^ Nat.log 2 idx) := by
  match idx, h with
  | k + 1, _ =>
      have hd0 := stagger_snd_pos (k + 1 - 2 ^ Nat.log 2 (k + 1))
      unfold staggerOffset
      simp only [staggerRatioPair]
      have hd : ((2 ^ Nat.log 2 (k + 1) : ℕ) : ℚ) * 2 = (2 : ℚ) ^ (Nat.log 2 (k + 1) + 1) := by
        push_cast
        ring
      rw [hd]
      have hd0' : (staggerRatioPair (k + 1 - 2 ^ Nat.log 2 (k + 1))).2 ≠ 0 := ne_of_gt hd0
      have h2' : ((2 : ℚ) ^ (Nat.log 2 (k + 1) + 1)) ≠ 0 := by positivity
      field_simp
      ring_nf
      exact Or.inl trivial

theorem staggerOffset_shift (k r : ℕ) (hr : r < 2 ^ k) :
    staggerOffset (2 ^ k + r) = 1 / (2 : ℚ) ^ (k + 1) + staggerOffset r := by
  have h1 : (1 : ℕ) ≤ 2 ^ k := Nat.one_le_two_pow
  have hlog : Nat.log 2 (2 ^ k + r) = k :=
    Nat.log_eq_of_pow_le_of_lt_pow (by omega) (by rw [pow_succ]; omega)
  rw [staggerOffset_rec (2 ^ k + r) (by omega), hlog,
    show 2 ^ k + r - 2 ^ k = r by omega]

theorem image_range_double (m : ℕ) (f : ℕ → ℚ) :
    (Finset.range (2 * m)).image f =
      (Finset.range m).image (fun j => f (2 * j)) ∪
      (Finset.range m).image (fun j => f (2 * j + 1)) := by
  ext x
  simp only [Finset.mem_image, Finset.mem_union, Finset.mem_range]
  constructor
  · rintro ⟨i, hi, rfl⟩
    rcases Nat.even_or_odd i with ⟨j, hj⟩ | ⟨j, hj⟩
    · exact Or.inl ⟨j, by omega, congrArg f (by omega)⟩
    · exact Or.inr ⟨j, by omega, congrArg f (by omega)⟩
  · rintro (⟨j, hj, rfl⟩ | ⟨j, hj, rfl⟩)
    · exact ⟨2 * j, by omega, rfl⟩
    · exact ⟨2 * j + 1, by omega, rfl⟩

/-- The offsets of the first `2^k` indices are exactly the dyadics with
denominator `2^k` (van der Corput bit-reversal enumeration). -/
theorem offset_image : ∀ k : ℕ,
    (Finset.range (2 ^ k)).image staggerOffset =
      (Finset.range (2 ^ k)).image (fun j : ℕ => (j : ℚ) / 2 ^ k) := by
  intro k
  induction k with
  | zero =>
      ext x
      simp [staggerOffset_zero]
  | succ k ih =>
      have h2k : (1 : ℕ) ≤ 2 ^ k := Nat.one_le_two_pow
      have hle : 2 ^ k ≤ 2 ^ (k + 1) := by rw [pow_succ]; omega
      have hsplit : Finset.range (2 ^ (k + 1)) =
          Finset.range (2 ^ k) ∪ Finset.Ico (2 ^ k) (2 ^ (k + 1)) := by
        simp only [Finset.range_eq_Ico]
        exact (Finset.Ico_union_Ico_eq_Ico (Nat.zero_le (2 ^ k)) hle).symm
      have hIco : (Finset.Ico (2 ^ k) (2 ^ (k + 1))).image staggerOffset =
          (Finset.range (2 ^ k)).image
            (fun j : ℕ => 1 / (2 : ℚ) ^ (k + 1) + (j : ℚ) / 2 ^ k) := by
        have hre : Finset.Ico (2 ^ k) (2 ^ (k + 1)) =
            (Finset.range (2 ^ k)).image (fun r => 2 ^ k + r) := by
          ext y
          simp only [Finset.mem_Ico, Finset.mem_image, Finset.mem_range]
          constructor
          · intro hy
            exact ⟨y - 2 ^ k, by rw [pow_succ] at hy; omega, by omega⟩
          · rintro ⟨r, hr, rfl⟩
            rw [pow_succ]
            omega
        rw [hre, Finset.image_image]
        have hcomp : (Finset.range (2 ^ k)).image (staggerOffset ∘ (fun r => 2 ^ k + r)) =
            (Finset.range (2 ^ k)).image
              (fun r : ℕ => 1 / (2 : ℚ) ^ (k + 1) + staggerOffset r) := by
          apply Finset.image_congr
          intro r hr
          simp only [Function.comp]
          exact staggerOffset_shift k r (by simpa using hr)
        rw [hcomp]
        ext x
        simp only [Finset.mem_image, Finset.mem_range]
        constructor
        · rintro ⟨r, hr, rfl⟩
          have hmem : staggerOffset r ∈ (Finset.range (2 ^ k)).image staggerOffset :=
            Finset.mem_image_of_mem _ (by simpa using hr)
          rw [ih] at hmem
          obtain ⟨j, hj, hje⟩ := Finset.mem_image.mp hmem
          exact ⟨j, by simpa using hj, by rw [hje]⟩
        · rintro ⟨j, hj, rfl⟩
          have hmem : (j : ℚ) / 2 ^ k ∈
              (Finset.range (2 ^ k)).image (fun j : ℕ => (j : ℚ) / 2 ^ k) :=
            Finset.mem_image_of_mem _ (by simpa using hj)
          rw [← ih] at hmem
          obtain ⟨r, hr, hre'⟩ := Finset.mem_image.mp hmem
          exact ⟨r, by simpa using hr, by rw [hre']⟩
      have hdouble : (2 : ℕ) ^ (k + 1) = 2 * 2 ^ k := by rw [pow_succ]; ring
      have hpow : ((2 : ℚ) ^ k) ≠ 0 := by positivity
      have hpow1 : ((2 : ℚ) ^ (k + 1)) ≠ 0 := by positivity
      calc (Finset.range (2 ^ (k + 1))).image staggerOffset
          = (Finset.range (2 ^ k)).image staggerOffset ∪
            (Finset.Ico (2 ^ k) (2 ^ (k + 1))).image staggerOffset := by
            conv_lhs => rw [hsplit]
            rw [Finset.image_union]
        _ = (Finset.range (2 ^ k)).image (fun j : ℕ => (j : ℚ) / 2 ^ k) ∪
            (Finset.range (2 ^ k)).image
              (fun j : ℕ => 1 / (2 : ℚ) ^ (k + 1) + (j : ℚ) / 2 ^ k) := by
            rw [ih, hIco]
        _ = (Finset.range (2 ^ k)).image
              (fun j : ℕ => ((2 * j : ℕ) : ℚ) / 2 ^ (k + 1)) ∪
            (Finset.range (2 ^ k)).image
              (fun j : ℕ => ((2 * j + 1 : ℕ) : ℚ) / 2 ^ (k + 1)) := by
            congr 1
            · apply Finset.image_congr
              intro j hj
              show (j : ℚ) / 2 ^ k = ((2 * j : ℕ) : ℚ) / 2 ^ (k + 1)
              push_cast
              rw [pow_succ]
              field_simp
              ring
            · apply Finset.image_congr
              intro j hj
              show 1 / (2 : ℚ) ^ (k + 1) + (j : ℚ) / 2 ^ k =
                ((2 * j + 1 : ℕ) : ℚ) / 2 ^ (k + 1)
              push_cast
              rw [pow_succ]
              field_simp
              ring
        _ = (Finset.range (2 * 2 ^ k)).image (fun j : ℕ => (j : ℚ) / 2 ^ (k + 1)) :=
            (image_range_double (2 ^ k) (fun j : ℕ => (j : ℚ) / 2 ^ (k + 1))).symm
        _ = (Finset.range (2 ^ (k + 1))).image (fun j : ℕ => (j : ℚ) / 2 ^ (k + 1)) := by
            rw [← hdouble]

/-- The offsets of the indices `2^k .. 2^(k+1) − 1` are exactly the odd
dyadics with denominator `2^(k+1)`. -/
theorem offset_image_Ico (k : ℕ) :
    (Finset.Ico (2 ^ k) (2 ^ (k + 1))).image staggerOffset =
      (Finset.range (2 ^ k)).image (fun j : ℕ => (2 * (j : ℚ) + 1) / 2 ^ (k + 1)) := by
  have h2k : (1 : ℕ) ≤ 2 ^ k := Nat.one_le_two_pow
  have hre : Finset.Ico (2 ^ k) (2 ^ (k + 1)) =
      (Finset.range (2 ^ k)).image (fun r => 2 ^ k + r) := by
    ext y
    simp only [Finset.mem_Ico, Finset.mem_image, Finset.mem_range]
    constructor
    · intro hy
      exact ⟨y - 2 ^ k, by rw [pow_succ] at hy; omega, by omega⟩
    · rintro ⟨r, hr, rfl⟩
      rw [pow_succ]
      omega
  rw [hre, Finset.image_image]
  ext x
  simp only [Finset.mem_image, Finset.mem_range, Function.comp]
  constructor
  · rintro ⟨r, hr, rfl⟩
    have hmem : staggerOffset r ∈ (Finset.range (2 ^ k)).image staggerOffset :=
      Finset.mem_image_of_mem _ (by simpa using hr)
    rw [offset_image] at hmem
    obtain ⟨j, hj, hje⟩ := Finset.mem_image.mp hmem
    refine ⟨j, by simpa using hj, ?_⟩
    rw [staggerOffset_shift k r hr, ← hje]
    have hpow : ((2 : ℚ) ^ k) ≠ 0 := by positivity
    rw [pow_succ]
    field_simp
    ring
  · rintro ⟨j, hj, rfl⟩
    have hmem : (j : ℚ) / 2 ^ k ∈
        (Finset.range (2 ^ k)).image (fun j : ℕ => (j : ℚ) / 2 ^ k) :=
      Finset.mem_image_of_mem _ (by simpa using hj)
    rw [← offset_image] at hmem
    obtain ⟨r, hr, hre'⟩ := Finset.mem_image.mp hmem
    have hr' : r < 2 ^ k := by simpa using hr
    refine ⟨r, hr', ?_⟩
    rw [staggerOffset_shift k r hr', hre']
    have hpow : ((2 : ℚ) ^ k) ≠ 0 := by positivity
    rw [pow_succ]
    field_simp
    ring

/-! ### Claim C7: the stagger-offset recursion, range and interleaving -/

/-- Claim C7: `staggerRatioPair` satisfies `offset(0) = 0/1` and, for
`idx > 0`, returns `(1 + n0·d/d0, d)` with `d = 2·msb`,
`(n0, d0) = staggerRatioPair(idx − msb)` and `msb` the largest power of two
`≤ idx`; every offset lies in `[0, 1)`; and for every `k` the offsets of
`{2^k .. 2^(k+1)−1}` are exactly the odd dyadics `(2j+1)/2^(k+1)`, disjoint
from the offsets of `{0 .. 2^k−1}` (the dyadics `j/2^k`) and strictly
interleaving them — each new offset lies strictly between the consecutive
old offsets `j/2^k` and `(j+1)/2^k`. -/
theorem c7_stagger :
    staggerRatioPair 0 = (0, 1) ∧
    (∀ idx : ℕ, 0 < idx →
      staggerRatioPair idx =
        (1 + (staggerRatioPair (idx - 2 ^ Nat.log 2 idx)).1 *
            (((2 ^ Nat.log 2 idx : ℕ) : ℚ) * 2) /
            (staggerRatioPair (idx - 2 ^ Nat.log 2 idx)).2,
         ((2 ^ Nat.log 2 idx : ℕ) : ℚ) * 2)) ∧
    (∀ idx : ℕ, 0 ≤ staggerOffset idx ∧ staggerOffset idx < 1) ∧
    (∀ k : ℕ,
      (Finset.range (2 ^ k)).image staggerOffset =
        (Finset.range (2 ^ k)).image (fun j : ℕ => (j : ℚ) / 2 ^ k) ∧
      (Finset.Ico (2 ^ k) (2 ^ (k + 1))).image staggerOffset =
        (Finset.range (2 ^ k)).image (fun j : ℕ => (2 * (j : ℚ) + 1) / 2 ^ (k + 1)) ∧
      Disjoint ((Finset.Ico (2 ^ k) (2 ^ (k + 1))).image staggerOffset)
        ((Finset.range (2 ^ k)).image staggerOffset) ∧
      (∀ j : ℕ, j < 2 ^ k →
        (j : ℚ) / 2 ^ k < (2 * (j : ℚ) + 1) / 2 ^ (k + 1) ∧
        (2 * (j : ℚ) + 1) / 2 ^ (k + 1) < ((j : ℚ) + 1) / 2 ^ k)) := by
  refine ⟨staggerRatioPair_zero, ?_, ?_, ?_⟩
  · intro idx h
    match idx, h with
    | k + 1, _ => simp only [staggerRatioPair]
  · intro idx
    have hk : idx < 2 ^ idx := Nat.lt_two_pow idx
    have hmem : staggerOffset idx ∈ (Finset.range (2 ^ idx)).image staggerOffset :=
      Finset.mem_image_of_mem _ (by simpa using hk)
    rw [offset_image] at hmem
    obtain ⟨j, hj, hje⟩ := Finset.mem_image.mp hmem
    rw [← hje]
    have hjlt : j < 2 ^ idx := by simpa using hj
    constructor
    · positivity
    · rw [div_lt_one (by positivity)]
      exact_mod_cast hjlt
  · intro k
    have hpow : ((2 : ℚ) ^ k) ≠ 0 := by positivity
    have hpos : (0 : ℚ) < (2 : ℚ) ^ k := by positivity
    have hpos1 : (0 : ℚ) < (2 : ℚ) ^ (k + 1) := by positivity
    refine ⟨offset_image k, offset_image_Ico k, ?_, ?_⟩
    · rw [offset_image k, offset_image_Ico k]
      rw [Finset.disjoint_left]
      intro x hx hy
      obtain ⟨i, hi, hie⟩ := Finset.mem_image.mp hx
      obtain ⟨j, hj, hje⟩ := Finset.mem_image.mp hy
      rw [← hie] at hje
      have hpow1ne : ((2 : ℚ) ^ (k + 1)) ≠ 0 := by positivity
      rw [div_eq_div_iff hpow hpow1ne, pow_succ] at hje
      have hc : ((j : ℚ) * 2) * 2 ^ k = (2 * (i : ℚ) + 1) * 2 ^ k := by
        ring_nf
        ring_nf at hje
        linarith
      have hq : (j : ℚ) * 2 = 2 * (i : ℚ) + 1 := mul_right_cancel₀ hpow hc
      have hn : (2 * j : ℕ) = (2 * i + 1 : ℕ) := by
        have : ((2 * j : ℕ) : ℚ) = ((2 * i + 1 : ℕ) : ℚ) := by push_cast; linarith
        exact_mod_cast this
      omega
    · intro j hj
      constructor
      · rw [div_lt_div_iff₀ hpos hpos1, pow_succ]
        nlinarith [hpos]
      · rw [div_lt_div_iff₀ hpos1 hpos, pow_succ]
        nlinarith [hpos]

/-- Witness for `c7_stagger`, instantiating the guarded parts at concrete
indices: the recursion at `idx = 5`, the range bound at `idx = 5`, and the
interleaving inequalities at `k = 2`, `j = 1`. -/
theorem c7_stagger_witness :
    (0 : ℕ) < 5 ∧
    staggerRatioPair 5 =
      (1 + (staggerRatioPair (5 - 2 ^ Nat.log 2 5)).1 *
          (((2 ^ Nat.log 2 5 : ℕ) : ℚ) * 2) / (staggerRatioPair (5 - 2 ^ Nat.log 2 5)).2,
       ((2 ^ Nat.log 2 5 : ℕ) : ℚ) * 2) ∧
    (0 ≤ staggerOffset 5 ∧ staggerOffset 5 < 1) ∧
    ((1 : ℕ) < 2 ^ 2 ∧
      ((1 : ℚ)) / 2 ^ 2 < (2 * (1 : ℚ) + 1) / 2 ^ (2 + 1) ∧
      (2 * (1 : ℚ) + 1) / 2 ^ (2 + 1) < ((1 : ℚ) + 1) / 2 ^ 2) :=
  ⟨by omega, c7_stagger.2.1 5 (by omega), c7_stagger.2.2.1 5,
   by omega, (c7_stagger.2.2.2 2).2.2.2 1 (by omega)⟩

/-! ## The external hash primitive and `HashTable`'s secret-derived data

`HashTable.getRootHash` and `HashTable.getSecretFingerprint` hard-code
`hashlib.sha256`. The specification treats the hash primitive as an assumed
external interface ("any 256-bit cryptographic hash function"); it is
modelled here concretely by the standard SHA-256 compression pipeline
(FIPS 180-4) over byte lists, so that the secret-derived quantities are
closed, executable definitions. None of the theorems below depend on the
internals of the compression function — only on the fingerprint's folding
shape. -/

def rotr32 (n x : ℕ) : ℕ := ((x >>> n) ||| (x <<< (32 - n))) % 4294967296

def bigSigma0 (x : ℕ) : ℕ := rotr32 2 x ^^^ rotr32 13 x ^^^ rotr32 22 x

def bigSigma1 (x : ℕ) : ℕ := rotr32 6 x ^^^ rotr32 11 x ^^^ rotr32 25 x

def smallSigma0 (x : ℕ) : ℕ := rotr32 7 x ^^^ rotr32 18 x ^^^ (x >>> 3)

def smallSigma1 (x : ℕ) : ℕ := rotr32 17 x ^^^ rotr32 19 x ^^^ (x >>> 10)

def shaCh (x y z : ℕ) : ℕ := (x &&& y) ^^^ ((x ^^^ 4294967295) &&& z)

def shaMaj (x y z : ℕ) : ℕ := (x &&& y) ^^^ (x &&& z) ^^^ (y &&& z)

def shaK : List ℕ :=
  [1116352408, 1899447441, 3049323471, 3921009573, 961987163,
   1508970993, 2453635748, 2870763221, 3624381080, 310598401,
   607225278, 1426881987, 1925078388, 2162078206, 2614888103,
   3248222580, 3835390401, 4022224774, 264347078, 604807628,
   770255983, 1249150122, 1555081692, 1996064986, 2554220882,
   2821834349, 2952996808, 3210313671, 3336571891, 3584528711,
   113926993, 338241895, 666307205, 773529912, 1294757372,
   1396182291, 1695183700, 1986661051, 2177026350, 2456956037,
   2730485921, 2820302411, 3259730800, 3345764771, 3516065817,
   3600352804, 4094571909, 275423344, 430227734, 506948616,
   659060556, 883997877, 958139571, 1322822218, 1537002063,
   1747873779, 1955562222, 2024104815, 2227730452, 2361852424,
   2428436474, 2756734187, 3204031479, 3329325298]

def shaH0 : List ℕ :=
  [1779033703, 3144134277, 1013904242, 2773480762,
   1359893119, 2600822924, 528734635, 1541459225]

/-- Big-endian byte expansion of `n` over `len` bytes. -/
def bytesBE (n len : ℕ) : List ℕ :=
  (List.range len).map (fun i => (n >>> (8 * (len - 1 - i))) &&& 255)

/-- Big-endian 32-bit word at byte offset `i`. -/
def wordAt (bytes : List ℕ) (i : ℕ) : ℕ :=
  bytes.getD i 0 * 16777216 + bytes.getD (i + 1) 0 * 65536 +
    bytes.getD (i + 2) 0 * 256 + bytes.getD (i + 3) 0

/-- Message schedule: the 16 block words extended to 64. -/
def schedList (block : List ℕ) : List ℕ :=
  (List.range 48).foldl
    (fun W t =>
      W ++ [(smallSigma1 (W.getD (t + 14) 0) + W.getD (t + 9) 0 +
             smallSigma0 (W.getD (t + 1) 0) + W.getD t 0) % 4294967296])
    (block.take 16)

structure SHAState where
  sa : ℕ
  sb : ℕ
  sc : ℕ
  sd : ℕ
  se : ℕ
  sf : ℕ
  sg : ℕ
  sh : ℕ

def compressRound (W : List ℕ) (s : SHAState) (t : ℕ) : SHAState :=
  let t1 := (s.sh + bigSigma1 s.se + shaCh s.se s.sf s.sg +
             shaK.getD t 0 + W.getD t 0) % 4294967296
  let t2 := (bigSigma0 s.sa + shaMaj s.sa s.sb s.sc) % 4294967296
  ⟨(t1 + t2) % 4294967296, s.sa, s.sb, s.sc,
   (s.sd + t1) % 4294967296, s.se, s.sf, s.sg⟩

def compressBlock (hs : List ℕ) (block : List ℕ) : List ℕ :=
  let W := schedList block
  let s0 : SHAState := ⟨hs.getD 0 0, hs.getD 1 0, hs.getD 2 0, hs.getD 3 0,
                        hs.getD 4 0, hs.getD 5 0, hs.getD 6 0, hs.getD 7 0⟩
  let s := (List.range 64).foldl (compressRound W) s0
  [(hs.getD 0 0 + s.sa) % 4294967296, (hs.getD 1 0 + s.sb) % 4294967296,
   (hs.getD 2 0 + s.sc) % 4294967296, (hs.getD 3 0 + s.sd) % 4294967296,
   (hs.getD 4 0 + s.se) % 4294967296, (hs.getD 5 0 + s.sf) % 4294967296,
   (hs.getD 6 0 + s.sg) % 4294967296, (hs.getD 7 0 + s.sh) % 4294967296]

/-- SHA-256 of a byte list: pad to a multiple of 64 bytes with `0x80`,
zeros and the 64-bit big-endian bit length, then compress block by block
and emit the eight state words big-endian. -/
def sha256 (msg : List ℕ) : List ℕ :=
  let L := msg.length
  let padded := msg ++ 128 :: (List.replicate ((119 - L % 64) % 64) 0 ++ bytesBE (8 * L) 8)
  let nblocks := padded.length / 64
  let finalH := (List.range nblocks).foldl
    (fun hs b => compressBlock hs ((List.range 16).map (fun w => wordAt padded (64 * b + 4 * w))))
    shaH0
  finalH.flatMap (fun w => bytesBE w 4)

theorem bytesBE_length (n len : ℕ) : (bytesBE n len).length = len := by
  simp [bytesBE]

theorem compressBlock_length (hs block : List ℕ) : (compressBlock hs block).length = 8 :=
  rfl

theorem sha_fold_length (f : List ℕ → ℕ → List ℕ)
    (hf : ∀ hs b, (f hs b).length = 8) :
    ∀ (bs : List ℕ) (hs : List ℕ), hs.length = 8 → (bs.foldl f hs).length = 8 := by
  intro bs
  induction bs with
  | nil => intro hs h; exact h
  | cons b bt ih =>
      intro hs h
      rw [List.foldl_cons]
      exact ih (f hs b) (hf hs b)

theorem flatMap_bytesBE_length (l : List ℕ) :
    (l.flatMap (fun w => bytesBE w 4)).length = 4 * l.length := by
  induction l with
  | nil => rfl
  | cons w wt ih =>
      rw [List.flatMap_cons, List.length_append, ih, bytesBE_length, List.length_cons]
      omega

/-- The digest always has exactly 32 bytes. -/
theorem sha256_length (msg : List ℕ) : (sha256 msg).length = 32 := by
  unfold sha256
  rw [flatMap_bytesBE_length]
  rw [sha_fold_length _ (fun hs b => compressBlock_length hs _) _ shaH0 rfl]

/-! ### `HashTable.getSecretFingerprint` and `ConstructPretextHeader` -/

/-- The 32-character display alphabet of the fingerprint
(`"_/|\\-~..,oO:;+LTU^abspg*#378%?''"`). -/
def charlist : List Char :=
  ['_', '/', '|', '\\', '-', '~', '.', '.', ',', 'o', 'O', ':', ';', '+', 'L', 'T',
   'U', '^', 'a', 'b', 's', 'p', 'g', '*', '#', '3', '7', '8', '%', '?',
   '\x27', '\x27']

/-- The 12 five-bit values of `getSecretFingerprint`: hash the secret, wrap
the hex digest in `"f:" … ":fingerprint"`, hash again, XOR-fold 32 bytes to
16, then fold 16 to 12 with a stride-4 XOR masked to 5 bits (`& 31`). -/
def fingerCode (secret : String) : List ℕ :=
  let fingerPre := "f:" ++ bytesHex (sha256 (strUtf8 secret)) ++ ":fingerprint"
  let fingerMid := sha256 (strUtf8 fingerPre)
  let tmpA := ((fingerMid.take 16).zip (fingerMid.drop 16)).map (fun xy => xy.1 ^^^ xy.2)
  ((tmpA.take 12).zip (tmpA.drop 4)).map (fun xy => (xy.1 ^^^ xy.2) &&& 31)

/-- `HashTable.getSecretFingerprint`. -/
def getSecretFingerprint (secret : String) : String :=
  String.mk ((fingerCode secret).map (fun i => charlist.getD i ' '))

/-- `HashTable.ConstructPretextHeader`
(`d<YYMMDD>:<gele>:<pair>:<t|b><lead>:f<factor>:s<steps>`); the
`%g`-formatted numeric fields are taken as already-formatted strings, since
numeric display formatting is presentation-level. None of them derives from
the secret. -/
def ConstructPretextHeader (dateStr : String) (descending : Bool)
    (pairStr leadStr factorStr stepsStr : String) : String :=
  "d" ++ dateStr ++ ":" ++ (if descending then ">=" else "<=") ++ ":" ++ pairStr ++
    ":" ++ (if descending then "t" else "b") ++ leadStr ++ ":f" ++ factorStr ++
    ":s" ++ stepsStr

/-- `HashTable.getRootHash`: `sha256(header + secret)`. -/
def getRootHash (header secret : String) : List ℕ :=
  sha256 (strUtf8 (header ++ secret))

/-- The secret-relevant derived data of `HashTable.__init__`: the header
(computed before and independently of the secret), the root seed, and the
fingerprint. -/
structure HashTableCore where
  header : String
  roothash : List ℕ
  fingerprint : String

def mkHashTableCore (dateStr : String) (descending : Bool)
    (pairStr leadStr factorStr stepsStr : String) (secret : String) : HashTableCore :=
  let header := ConstructPretextHeader dateStr descending pairStr leadStr factorStr stepsStr
  { header := header
    roothash := getRootHash header secret
    fingerprint := getSecretFingerprint secret }

/-! ### Claim C9: headers, fingerprints and the pigeonhole -/

theorem getD_lt_eq {l : List ℕ} {i : ℕ} (d : ℕ) (h : i < l.length) :
    l.getD i d = l[i] := by
  rw [List.getD_eq_getElem?_getD, List.getElem?_eq_getElem h]
  rfl

theorem fingerCode_length (s : String) : (fingerCode s).length = 12 := by
  unfold fingerCode
  rw [List.length_map, List.length_zip, List.length_take, List.length_drop,
    List.length_map, List.length_zip, List.length_take, List.length_drop,
    sha256_length]
  rfl

theorem fingerCode_lt (s : String) : ∀ x ∈ fingerCode s, x < 32 := by
  intro x hx
  unfold fingerCode at hx
  obtain ⟨xy, _, rfl⟩ := List.mem_map.mp hx
  have := Nat.and_le_right (n := xy.1 ^^^ xy.2) (m := 31)
  omega

def fpEncode (l : List ℕ) : Fin 12 → Fin 32 :=
  fun i => ⟨l.getD i 0 % 32, Nat.mod_lt _ (by norm_num)⟩

theorem fpEncode_inj (l1 l2 : List ℕ) (h1 : l1.length = 12) (h2 : l2.length = 12)
    (hb1 : ∀ x ∈ l1, x < 32) (hb2 : ∀ x ∈ l2, x < 32)
    (he : fpEncode l1 = fpEncode l2) : l1 = l2 := by
  apply List.ext_getElem (by omega)
  intro i hi1 hi2
  have hfin : i < 12 := by omega
  have := congrFun he ⟨i, hfin⟩
  simp only [fpEncode, Fin.mk.injEq] at this
  rw [getD_lt_eq 0 hi1, getD_lt_eq 0 hi2] at this
  rw [Nat.mod_eq_of_lt (hb1 _ (l1.getElem_mem hi1)),
    Nat.mod_eq_of_lt (hb2 _ (l2.getElem_mem hi2))] at this
  exact this

/-- Claim C9 counterexample (the negation of the claim): there exist two
different secrets for which two `HashTable`s built with identical
parameters have EQUAL fingerprints (the fingerprint carries only 60 bits,
so the universally quantified "fingerprints differ" fails by pigeonhole),
while the headers are — as always — identical. -/
theorem c9_counterexample :
    ∃ s1 s2 : String, s1 ≠ s2 ∧
      (mkHashTableCore "200223" true "BTC:USD" "32000" "2" "24" s1).fingerprint =
        (mkHashTableCore "200223" true "BTC:USD" "32000" "2" "24" s2).fingerprint ∧
      (mkHashTableCore "200223" true "BTC:USD" "32000" "2" "24" s1).header =
        (mkHashTableCore "200223" true "BTC:USD" "32000" "2" "24" s2).header := by
  obtain ⟨m, n, hmn, hF⟩ := Finite.exists_ne_map_eq_of_infinite
    (fun k : ℕ => fpEncode (fingerCode (String.mk (List.replicate k 'a'))))
  refine ⟨String.mk (List.replicate m 'a'), String.mk (List.replicate n 'a'), ?_, ?_, rfl⟩
  · intro hc
    apply hmn
    have hdata : List.replicate m 'a' = List.replicate n 'a' := congrArg String.data hc
    have := congrArg List.length hdata
    simpa using this
  · have hcode : fingerCode (String.mk (List.replicate m 'a')) =
        fingerCode (String.mk (List.replicate n 'a')) :=
      fpEncode_inj _ _ (fingerCode_length _) (fingerCode_length _)
        (fingerCode_lt _) (fingerCode_lt _) hF
    show getSecretFingerprint _ = getSecretFingerprint _
    unfold getSecretFingerprint
    rw [hcode]

/-- Claim C9 (amended): for any two secrets and identical table parameters
the two header strings are identical — the header is computed from the
date, direction, pair and sequence descriptor only and does not depend on
the secret; the fingerprint, by contrast, is a fixed-length 12-character
string over the fixed 32-character alphabet (at most `32^12` values), so
distinct secrets yield distinct fingerprints (and Merkle roots) only with
overwhelming probability, not universally. -/
theorem c9_header_fingerprint :
    (∀ (dateStr : String) (descending : Bool)
       (pairStr leadStr factorStr stepsStr : String) (s1 s2 : String),
      (mkHashTableCore dateStr descending pairStr leadStr factorStr stepsStr s1).header =
        (mkHashTableCore dateStr descending pairStr leadStr factorStr stepsStr s2).header) ∧
    (∀ s : String, (getSecretFingerprint s).length = 12 ∧
      ((getSecretFingerprint s).data.all (fun c => decide (c ∈ charlist))) = true) := by
  constructor
  · intro dateStr descending pairStr leadStr factorStr stepsStr s1 s2
    rfl
  · intro s
    constructor
    · show ((fingerCode s).map (fun i => charlist.getD i ' ')).length = 12
      rw [List.length_map, fingerCode_length]
    · rw [List.all_eq_true]
      intro c hc
      rw [decide_eq_true_eq]
      have hc' : c ∈ (fingerCode s).map (fun i => charlist.getD i ' ') := hc
      obtain ⟨i, hi, rfl⟩ := List.mem_map.mp hc'
      have hlt : i < 32 := fingerCode_lt s i hi
      have hlen32 : i < charlist.length := by
        rw [show charlist.length = 32 from rfl]
        omega
      have hgd : charlist.getD i ' ' = charlist.get ⟨i, hlen32⟩ := by
        rw [List.getD_eq_getElem?_getD, List.getElem?_eq_getElem hlen32]
        rfl
      rw [hgd]
      exact charlist.getElem_mem hlen32

/-! ### Claim C8: ordering comparisons on `Price` -/

/-- Claim C8 as written predicts that an ordering comparison on two `Price`
objects with inverted-but-compatible pairs succeeds by auto-flip. The code's
`Price.__gt__` requires `same` (identical orientation) and raises otherwise:
at the explicit input `2 USD:BTS` vs `3 BTS:USD` the pairs are compatible but
every comparison raises `ValueError("Incompatible prices")`. -/
theorem c8_counterexample :
    Pair.compat ⟨"USD", "BTS"⟩ ⟨"BTS", "USD"⟩ = true ∧
    Price.gtE ⟨2, ⟨"USD", "BTS"⟩⟩ ⟨3, ⟨"BTS", "USD"⟩⟩ = .error "Incompatible prices" ∧
    Price.ltE ⟨2, ⟨"USD", "BTS"⟩⟩ ⟨3, ⟨"BTS", "USD"⟩⟩ = .error "Incompatible prices" ∧
    Price.geE ⟨2, ⟨"USD", "BTS"⟩⟩ ⟨3, ⟨"BTS", "USD"⟩⟩ = .error "Incompatible prices" ∧
    Price.leE ⟨2, ⟨"USD", "BTS"⟩⟩ ⟨3, ⟨"BTS", "USD"⟩⟩ = .error "Incompatible prices" :=
  ⟨rfl, rfl, rfl, rfl, rfl⟩

/-- Claim C8 (amended): the four ordering comparisons on `Price` succeed and
compare the rates exactly when the two pairs are identical in orientation
(`same`); whenever the pairs are not identically oriented — including the
inverted-but-compatible case, where no auto-flip is attempted — all four
raise a hard `ValueError`. -/
theorem c8_price_compare (p other : Price) :
    (p.pair.same other.pair = true →
      Price.gtE p other = .ok (decide (other.price < p.price)) ∧
      Price.ltE p other = .ok (decide (p.price < other.price)) ∧
      Price.geE p other = .ok (decide (other.price ≤ p.price)) ∧
      Price.leE p other = .ok (decide (p.price ≤ other.price))) ∧
    (p.pair.same other.pair = false →
      Price.gtE p other = .error "Incompatible prices" ∧
      Price.ltE p other = .error "Incompatible prices" ∧
      Price.geE p other = .error "Incompatible prices" ∧
      Price.leE p other = .error "Incompatible prices") := by
  constructor
  · intro h
    have h' : other.pair.same p.pair = true := by rw [pair_same_comm']; exact h
    have e1 : Price.gtE p other = .ok (decide (other.price < p.price)) := by
      simp [Price.gtE, h]
    have e2 : Price.gtE other p = .ok (decide (p.price < other.price)) := by
      simp [Price.gtE, h']
    refine ⟨e1, by simp [Price.ltE, e2], ?_, ?_⟩
    · simp only [Price.geE, e2, Except.map]
      rw [← decide_not]
      exact congrArg Except.ok (decide_eq_decide.mpr not_lt)
    · simp only [Price.leE, e1, Except.map]
      rw [← decide_not]
      exact congrArg Except.ok (decide_eq_decide.mpr not_lt)
  · intro h
    have h' : other.pair.same p.pair = false := by rw [pair_same_comm']; exact h
    refine ⟨?_, ?_, ?_, ?_⟩ <;>
      simp [Price.gtE, Price.ltE, Price.geE, Price.leE, h, h', Except.map]

/-- Witness for `c8_price_compare` at concrete prices with identical pairs
(success branch) and with inverted pairs (error branch). -/
theorem c8_price_compare_witness :
    (Pair.same ⟨"USD", "BTS"⟩ ⟨"USD", "BTS"⟩ = true ∧
      Price.gtE ⟨2, ⟨"USD", "BTS"⟩⟩ ⟨3, ⟨"USD", "BTS"⟩⟩ = .ok false) ∧
    (Pair.same ⟨"USD", "BTS"⟩ ⟨"BTS", "USD"⟩ = false ∧
      Price.gtE ⟨2, ⟨"USD", "BTS"⟩⟩ ⟨3, ⟨"BTS", "USD"⟩⟩ = .error "Incompatible prices") :=
  ⟨⟨by decide,
    by simpa using ((c8_price_compare ⟨2, ⟨"USD", "BTS"⟩⟩ ⟨3, ⟨"USD", "BTS"⟩⟩).1 (by decide)).1⟩,
   ⟨by decide,
    ((c8_price_compare ⟨2, ⟨"USD", "BTS"⟩⟩ ⟨3, ⟨"BTS", "USD"⟩⟩).2 (by decide)).1⟩⟩

end HTLCSim
